import Mathlib

/-!
Verification of the workflow execution engine of the web3-workflow-builder
repository (src/lib/workflowExecutor.ts and src/lib/contractCompiler.ts).

The engine's data model and operations are shallowly embedded here:

* JavaScript insertion-ordered Maps are embedded as association lists
  (mapGet / mapSet), with Map.set keeping the original insertion position
  of an existing key and appending a fresh key at the end, exactly like
  the JS runtime.
* buildExecutionOrder (Kahn's algorithm, workflowExecutor.ts lines 92-140)
  is embedded function by function: initDegAdj embeds the initialisation
  loop (lines 99-102), addEdges the edge loop (lines 105-108),
  initialQueue the seeding loop (lines 114-118), and kahnLoop the while
  loop (lines 120-132).  The while loop is driven by a fuel parameter;
  kahnFuel is proved large enough that the fuel never runs out, so the
  embedding agrees with the source loop, which always terminates.
* JavaScript numbers holding in-degrees are embedded as Int, and the
  expression (inDegree.get(x) || 0) as (mapGet m x).getD 0, which agrees
  with the JS truthiness semantics on integer values.
* execute (lines 36-90) and executeNode (lines 165-232) are embedded with
  the kind-specific handler bodies abstracted as an oracle
  handler : WNode -> HOutcome V; each handler body either returns a
  success payload, returns a failure result, or throws.  The claims about
  execute concern only the control structure around the handlers, which is
  embedded faithfully: the status / node-update callbacks become an event
  trace, the stop flag becomes the sequence of values the loop reads at
  its per-iteration check, and the 500ms visual-feedback delay (line 219)
  and the edge-status callbacks (lines 142-163), which mirror the node
  status 1-1, are not modelled since no claim mentions them.
* findPreviousData (lines 504-512), validateSolidityCode,
  extractContractName (contractCompiler.ts lines 77-118) and
  executeContractInput (workflowExecutor.ts lines 255-295) are embedded
  directly; the two regular expressions of contractCompiler.ts are
  embedded as explicit scanners over the character list, with the
  greedy-matching behaviour spelled out (for both patterns every
  continuation after a greedy piece starts with a character class
  disjoint from the piece, so the greedy match is forced and no
  backtracking can occur).
-/

namespace Workflow

/-! ## Insertion-ordered maps (JavaScript Map) -/

/-- Embedding of JavaScript Map.get on an insertion-ordered association list. -/
def mapGet {α : Type} (m : List (String × α)) (k : String) : Option α :=
  (m.find? (fun p => p.1 = k)).map Prod.snd

/-- Embedding of JavaScript Map.set: an existing key keeps its insertion
position and gets the new value, a fresh key is appended at the end. -/
def mapSet {α : Type} : List (String × α) → String → α → List (String × α)
  | [], k, v => [(k, v)]
  | (k', v') :: rest, k, v =>
      if k' = k then (k, v) :: rest else (k', v') :: mapSet rest k v

/-- Keys of a map, in insertion order. -/
def keysOf {α : Type} (m : List (String × α)) : List String := m.map Prod.fst


/-! ## Graph model

A step (node) of the workflow graph: its unique id, its display label
(node.data.label) and its kind tag (node.data.type).  The remaining
payload fields are consumed only inside the kind-specific handler bodies,
which are abstracted by the handler oracle below. -/

/-- A workflow step, from the Node/NodeData shape of the source. -/
structure WNode where
  id : String
  label : String
  type : String
deriving DecidableEq, Repr

/-- A workflow connection, from the Edge shape of the source. -/
structure WEdge where
  source : String
  target : String
deriving DecidableEq, Repr

/-- The list of step ids of a graph. -/
def nodeIds (nodes : List WNode) : List String := nodes.map WNode.id

/-- Every connection endpoint names a step of the graph.  This is the shape
required by the data model of the specification, where a connection is a
pair of step ids. -/
def EdgesWellFormed (nodes : List WNode) (edges : List WEdge) : Prop :=
  ∀ e ∈ edges, e.source ∈ nodeIds nodes ∧ e.target ∈ nodeIds nodes

/-- The connection relation restricted to step ids present in the graph:
u -> v when some connection of the graph goes from step u to step v. -/
def stepEdgeRel (nodes : List WNode) (edges : List WEdge) (u v : String) : Prop :=
  u ∈ nodeIds nodes ∧ v ∈ nodeIds nodes ∧ ∃ e ∈ edges, e.source = u ∧ e.target = v

/-- Acyclicity of the connection relation restricted to step ids present in
the graph: no step reaches itself through a nonempty chain of connections
between steps. -/
def AcyclicRestricted (nodes : List WNode) (edges : List WEdge) : Prop :=
  ∀ v, ¬ Relation.TransGen (stepEdgeRel nodes edges) v v

/-! ## buildExecutionOrder (workflowExecutor.ts lines 92-140) -/

/-- Embedding of the initialisation loop (lines 99-102): every node id is
given in-degree 0 and an empty adjacency list. -/
def initDegAdj (nodes : List WNode) :
    List (String × Int) × List (String × List String) :=
  nodes.foldl
    (fun st n => (mapSet st.1 n.id 0, mapSet st.2 n.id []))
    ([], [])

/-- Embedding of the edge loop (lines 105-108): for each edge, the target's
entry in adjacencyList.get(edge.source) is appended when the source has an
adjacency entry (the optional-chaining push is a no-op otherwise), and the
target's in-degree is set to (inDegree.get(edge.target) || 0) + 1. -/
def addEdges (edges : List WEdge)
    (st : List (String × Int) × List (String × List String)) :
    List (String × Int) × List (String × List String) :=
  edges.foldl
    (fun st e =>
      (mapSet st.1 e.target ((mapGet st.1 e.target).getD 0 + 1),
       match mapGet st.2 e.source with
       | some lst => mapSet st.2 e.source (lst ++ [e.target])
       | none => st.2))
    st

/-- Embedding of the queue-seeding loop (lines 114-118): all keys of the
in-degree map holding degree 0, in insertion order. -/
def initialQueue (inDeg : List (String × Int)) : List String :=
  (inDeg.filter (fun p => decide (p.2 = 0))).map Prod.fst

/-- The state of Kahn's while loop: the FIFO queue, the in-degree map and
the result list. -/
structure KahnState where
  queue : List String
  inDegree : List (String × Int)
  result : List String
deriving Repr

/-- Embedding of the body of the forEach over the dequeued node's
neighbours (lines 124-131): decrement the neighbour's in-degree and
enqueue it when the new degree is 0. -/
def processNeighbor (st : List String × List (String × Int)) (neighbor : String) :
    List String × List (String × Int) :=
  let newDegree := (mapGet st.2 neighbor).getD 0 - 1
  let st2 := mapSet st.2 neighbor newDegree
  if newDegree = 0 then (st.1 ++ [neighbor], st2) else (st.1, st2)

/-- Embedding of the while loop (lines 120-132), driven by fuel.  With the
fuel used by buildExecutionOrder the loop always drains the queue (proved
below), so the embedding agrees with the source loop. -/
def kahnLoop (adj : List (String × List String)) : Nat → KahnState → KahnState
  | 0, s => s
  | fuel + 1, s =>
      match s.queue with
      | [] => s
      | nodeId :: rest =>
          let nbrs := (mapGet adj nodeId).getD []
          let qd := nbrs.foldl processNeighbor (rest, s.inDegree)
          kahnLoop adj fuel ⟨qd.1, qd.2, s.result ++ [nodeId]⟩

/-- Fuel sufficient to drain the queue (proved below): the number of loop
iterations is bounded by the initial queue length plus the sum of the
positive in-degrees. -/
def kahnFuel (nodes : List WNode) (edges : List WEdge) : Nat :=
  nodes.length + 2 * edges.length + 1

/-- The message of the error thrown at line 136. -/
def cycleMessage : String := "Workflow contains a cycle. Please check your connections."

/-- Embedding of buildExecutionOrder (lines 92-140).  The thrown cycle
error is embedded as Except.error. -/
def buildExecutionOrder (nodes : List WNode) (edges : List WEdge) :
    Except String (List String) :=
  let st := addEdges edges (initDegAdj nodes)
  let queue := initialQueue st.1
  let out := kahnLoop st.2 (kahnFuel nodes edges) ⟨queue, st.1, []⟩
  if out.result.length = nodes.length then Except.ok out.result
  else Except.error cycleMessage

/-! ## execute and executeNode (workflowExecutor.ts lines 36-90 and 165-232)

The kind-specific handler bodies (executeProjectCreate ... executeCompletion,
lines 234-502) call external services and the shared execution context; for
the claims about execute they are abstracted as an oracle
handler : WNode -> HOutcome V giving, for each dispatched node, whether its
body returns a success result (with its data), returns a failure result
(with its message), or throws (with the exception message).  V is the type
of the opaque data payloads (any in the source). -/

/-- The status values passed to the onNodeStatus callback. -/
inductive Status where
  | idle
  | running
  | success
  | error
deriving DecidableEq, Repr

/-- Outcome of one kind-specific handler body: return a success result,
return a failure result, or throw. -/
inductive HOutcome (V : Type) where
  | ok (data : V)
  | fail (msg : String)
  | exn (msg : String)
deriving DecidableEq, Repr

/-- Whether a handler outcome is a success result. -/
def HOutcome.isOk {V : Type} : HOutcome V → Bool
  | .ok _ => true
  | _ => false

/-- Whether a handler outcome is a thrown exception. -/
def HOutcome.isExn {V : Type} : HOutcome V → Bool
  | .exn _ => true
  | _ => false

/-- Embedding of the JavaScript expression (s || d) on strings: the empty
string is falsy. -/
def jsOrStr (s d : String) : String := if s = "" then d else s

/-- The message of the ExecutionResult produced for a non-success handler
outcome: the failure result's own message, or for a thrown exception
error.message || the generic text of line 229. -/
def failureMessage {V : Type} : HOutcome V → String
  | .ok _ => ""
  | .fail m => m
  | .exn m => jsOrStr m "Node execution failed"

/-- One observable callback of a run.  status embeds onNodeStatus,
updateOutput / updateError embed the two onNodeUpdate calls of
executeNode (lines 211 and 215/225).  The onEdgeUpdate callback mirrors
the status events 1-1 (updateEdgeStatus, lines 142-163) and is not
modelled separately. -/
inductive Event (V : Type) where
  | status (id : String) (s : Status)
  | updateOutput (id : String) (data : V)
  | updateError (id : String) (msg : String)
deriving DecidableEq, Repr

/-- Embedding of the ExecutionResult interface (lines 17-21). -/
structure ExecutionResult (V : Type) where
  success : Bool
  message : String
  data : Option V := none
deriving DecidableEq, Repr

/-- Embedding of executeNode (lines 165-232) over the handler oracle: emit
running, dispatch the handler body, then emit success with the output
update or error with the error update; a thrown exception is caught at
line 222 and converted to a failure result.  Returns the ExecutionResult
together with the emitted events, in order. -/
def executeNode {V : Type} (handler : WNode → HOutcome V) (node : WNode) :
    ExecutionResult V × List (Event V) :=
  match handler node with
  | .ok d =>
      (⟨true, "", some d⟩,
        [.status node.id .running, .status node.id .success, .updateOutput node.id d])
  | .fail m =>
      (⟨false, m, none⟩,
        [.status node.id .running, .status node.id .error, .updateError node.id m])
  | .exn m =>
      (⟨false, jsOrStr m "Node execution failed", none⟩,
        [.status node.id .running, .status node.id .error,
         .updateError node.id (jsOrStr m "Node execution failed")])

/-- Message of the early return at lines 44-49. -/
def noNodesMessage : String := "No nodes to execute. Please add nodes to your workflow."

/-- Message of the stop return at lines 53-58. -/
def stoppedMessage : String := "Workflow execution stopped by user"

/-- Message of the failure return at lines 65-70, naming the failing node
by its display label. -/
def failedAtMessage (label msg : String) : String :=
  "Failed at node \"" ++ label ++ "\": " ++ msg

/-- Embedding of the for-loop of execute (lines 52-74).  The mutable
stopped flag, set by stop() at an arbitrary moment, is embedded as the
sequence stopFlag i of values the loop reads at its check at the top of
iteration i.  The loop threads the executionData map and the event trace
and returns (final result, final executionData, events). -/
def runLoop {V : Type} (nodes : List WNode) (handler : WNode → HOutcome V)
    (stopFlag : Nat → Bool) :
    List String → Nat → List (String × Option V) → List (Event V) →
    ExecutionResult V × List (String × Option V) × List (Event V)
  | [], _, ed, evs => (⟨true, "Workflow executed successfully", none⟩, ed, evs)
  | nodeId :: rest, i, ed, evs =>
      if stopFlag i then (⟨false, stoppedMessage, none⟩, ed, evs)
      else
        match nodes.find? (fun n => n.id = nodeId) with
        | none => runLoop nodes handler stopFlag rest (i + 1) ed evs
        | some node =>
            let r := executeNode handler node
            if r.1.success then
              runLoop nodes handler stopFlag rest (i + 1)
                (mapSet ed nodeId r.1.data) (evs ++ r.2)
            else
              (⟨false, failedAtMessage node.label r.1.message, none⟩, ed, evs ++ r.2)

/-- Embedding of execute (lines 36-90): build the execution order (a thrown
cycle error is caught by the catch at line 84, whose message is
error.message || a generic text), fail fast on an empty order, then walk
the order.  The successful completion summary payload (line 82) is not
modelled; no claim mentions it. -/
def execute {V : Type} (nodes : List WNode) (edges : List WEdge)
    (handler : WNode → HOutcome V) (stopFlag : Nat → Bool) :
    ExecutionResult V × List (String × Option V) × List (Event V) :=
  match buildExecutionOrder nodes edges with
  | .error msg =>
      (⟨false, jsOrStr msg "Unknown error during workflow execution", none⟩, [], [])
  | .ok executionOrder =>
      if executionOrder.length = 0 then (⟨false, noNodesMessage, none⟩, [], [])
      else runLoop nodes handler stopFlag executionOrder 0 [] []

/-! ## findPreviousData (workflowExecutor.ts lines 504-512) -/

/-- Embedding of findPreviousData: walk the executionData entries in
insertion order and return the first data whose node has the requested
kind, or null. -/
def findPreviousData {V : Type} (nodes : List WNode)
    (executionData : List (String × Option V)) (nodeType : String) :
    Option (Option V) :=
  match executionData with
  | [] => none
  | (nodeId, data) :: rest =>
      match nodes.find? (fun n => n.id = nodeId) with
      | some node =>
          if node.type = nodeType then some data
          else findPreviousData nodes rest nodeType
      | none => findPreviousData nodes rest nodeType

/-! ## contractCompiler.ts: validateSolidityCode, extractContractName,
and the Source Input handler executeContractInput

The two regular expressions are embedded as explicit scanners.  In both
patterns every continuation after a greedy piece demands a character class
disjoint from the piece being repeated, so the greedy match is forced and
the scanners below implement the exact JavaScript semantics (leftmost
match, alternatives in order -- the three keyword alternatives are
pairwise prefix-incompatible, so at most one can match at a position). -/

/-- The JavaScript whitespace class backslash-s (also the class trimmed by
String.prototype.trim). -/
def isSpaceJS (c : Char) : Bool :=
  c = ' ' || c = '\t' || c = '\n' || c = '\r' || c = '\x0b' || c = '\x0c' ||
  c = '\u00a0' || c = '\u1680' || ('\u2000' ≤ c && c ≤ '\u200a') ||
  c = '\u2028' || c = '\u2029' || c = '\u202f' || c = '\u205f' ||
  c = '\u3000' || c = '\ufeff'

/-- The JavaScript word-character class backslash-w. -/
def isWordChar (c : Char) : Bool :=
  ('a' ≤ c && c ≤ 'z') || ('A' ≤ c && c ≤ 'Z') || ('0' ≤ c && c ≤ '9') || c = '_'

/-- The keyword alternatives of the patterns, in the order the regular
expressions list them. -/
def solidityKeywords : List (List Char) :=
  ["contract".toList, "interface".toList, "library".toList]

/-- First keyword of the alternation that is a prefix of l, with the rest
of l after it.  At most one alternative can match since no keyword is a
prefix of another. -/
def matchKeyword (l : List Char) : Option (List Char) :=
  match solidityKeywords.find? (fun kw => kw.isPrefixOf l) with
  | some kw => some (l.drop kw.length)
  | none => none

/-- Match of the tail pattern (backslash-s+ then a captured backslash-w+)
at the start of l, returning the captured word.  The space run must be
nonempty and maximal (the following piece starts with a word character),
and so must the word run. -/
def matchSpacesWord (l : List Char) : Option (List Char) :=
  let spaces := l.takeWhile isSpaceJS
  if spaces.isEmpty then none
  else
    let afterSpaces := l.dropWhile isSpaceJS
    let word := afterSpaces.takeWhile isWordChar
    if word.isEmpty then none else some word

/-- Match at one position of the pattern of the fallback regular expression
of extractContractName and of the third check of validateSolidityCode:
(contract | interface | library) backslash-s+ (backslash-w+). -/
def matchKeywordNameAt (l : List Char) : Option (List Char) :=
  match matchKeyword l with
  | some rest => matchSpacesWord rest
  | none => none

/-- Leftmost match of the keyword-name pattern over the whole text. -/
def scanKeywordName : List Char → Option (List Char)
  | [] => none
  | c :: rest =>
      match matchKeywordNameAt (c :: rest) with
      | some w => some w
      | none => scanKeywordName rest

/-- Match at one position of the group ((backslash-s+ is backslash-s+) |
(backslash-s* open-brace)) that ends the first regular expression of
extractContractName. -/
def matchMainTailAt (l : List Char) : Bool :=
  (let spaces := l.takeWhile isSpaceJS
   decide (¬ spaces.isEmpty) &&
     (let afterSpaces := l.dropWhile isSpaceJS
      ['i', 's'].isPrefixOf afterSpaces &&
        decide (¬ ((afterSpaces.drop 2).takeWhile isSpaceJS).isEmpty))) ||
  (match l.dropWhile isSpaceJS with
   | '\x7b' :: _ => true
   | _ => false)

/-- Match at one position of the first regular expression of
extractContractName: contract backslash-s+ (backslash-w+) then the group
(backslash-s+ is backslash-s+ | backslash-s* open-brace).  Only the
maximal word run can be followed by the group (both group alternatives
start with a non-word character), so no backtracking over the capture can
occur. -/
def matchMainContractAt (l : List Char) : Option (List Char) :=
  if "contract".toList.isPrefixOf l then
    match matchSpacesWord (l.drop 8) with
    | some word =>
        let rest := ((l.drop 8).dropWhile isSpaceJS).drop word.length
        if matchMainTailAt rest then some word else none
    | none => none
  else none

/-- Leftmost match of the main-contract pattern over the whole text. -/
def scanMainContract : List Char → Option (List Char)
  | [] => none
  | c :: rest =>
      match matchMainContractAt (c :: rest) with
      | some w => some w
      | none => scanMainContract rest

/-- Embedding of String.prototype.includes. -/
def containsSubstring : List Char → List Char → Bool
  | l, sub =>
      if sub.isPrefixOf l then true
      else
        match l with
        | [] => false
        | _ :: rest => containsSubstring rest sub

/-- Embedding of the return shape of validateSolidityCode. -/
structure ValidationResult where
  valid : Bool
  message : Option String
deriving DecidableEq, Repr

/-- Embedding of validateSolidityCode (contractCompiler.ts lines 92-118):
empty / all-whitespace source, missing pragma directive, then the
keyword-name pattern check. -/
def validateSolidityCode (sourceCode : String) : ValidationResult :=
  let l := sourceCode.toList
  if l.all isSpaceJS then
    ⟨false, some "Source code is empty"⟩
  else if !(containsSubstring l "pragma solidity".toList) then
    ⟨false, some "Missing \"pragma solidity\" directive. Please specify Solidity version."⟩
  else if (scanKeywordName l).isNone then
    ⟨false, some "No contract, interface, or library definition found"⟩
  else
    ⟨true, none⟩

/-- Embedding of extractContractName (contractCompiler.ts lines 77-87):
the main-contract pattern first, then the keyword-name pattern as
fallback, else null. -/
def extractContractName (sourceCode : String) : Option String :=
  match scanMainContract sourceCode.toList with
  | some w => some (String.mk w)
  | none =>
      match scanKeywordName sourceCode.toList with
      | some w => some (String.mk w)
      | none => none

/-- Embedding of the JavaScript falsiness test on an optional string field
(undefined and the empty string are falsy). -/
def strFalsy : Option String → Bool
  | none => true
  | some s => s = ""

/-- Embedding of the JavaScript expression (o || d) on an optional string. -/
def jsOrOptStr (o : Option String) (d : String) : String :=
  match o with
  | none => d
  | some s => jsOrStr s d

/-- Message of the unreachable branch of executeContractInput
(workflowExecutor.ts lines 277-281). -/
def couldNotExtractMessage : String :=
  "Could not extract contract name. Please specify it manually."

/-- Embedding of executeContractInput (workflowExecutor.ts lines 255-295),
the Source Input handler, over the node's contractCode and contractName
payload fields.  The produced data is the pair (contractCode,
contractName). -/
def executeContractInput (contractCode contractName : Option String) :
    ExecutionResult (String × String) :=
  if strFalsy contractCode then
    ⟨false, "Contract code is required", none⟩
  else
    let code := contractCode.getD ""
    let validation := validateSolidityCode code
    if !validation.valid then
      ⟨false, jsOrOptStr validation.message "Invalid Solidity code", none⟩
    else if strFalsy contractName then
      match extractContractName code with
      | none => ⟨false, couldNotExtractMessage, none⟩
      | some extracted => ⟨true, "Contract code validated", some (code, extracted)⟩
    else
      ⟨true, "Contract code validated", some (code, contractName.getD "")⟩

/-! ## Proof-layer definitions

The definitions below are not embeddings of source code; they are
specification vocabulary used to state and prove properties of the
embedded functions above: a termination measure for Kahn's while loop, the
remaining in-degree of a node with respect to a set of already-processed
nodes, the loop invariant of Kahn's algorithm, the id mentioned by an
event, and the executionData / event trace produced by a fully successful
prefix of the execution order. -/

/-- Sum of the positive parts of the in-degree values.  Together with the
queue length this is a strictly decreasing measure of Kahn's while loop. -/
def valSum (m : List (String × Int)) : Nat :=
  (m.map (fun p => p.2.toNat)).sum

/-- Termination measure of Kahn's while loop: queue length plus the sum of
the positive in-degrees. -/
def phiQD (qd : List String × List (String × Int)) : Nat :=
  qd.1.length + valSum qd.2

/-- The number of connections into k whose source has not been processed
yet: the ground-truth value of the in-degree entry of k during the loop. -/
def remInDeg (edges : List WEdge) (res : List String) (k : String) : Nat :=
  edges.countP (fun e => decide (e.target = k ∧ e.source ∉ res))

/-- The loop invariant of Kahn's algorithm on a well-formed graph with
unique step ids. -/
structure KahnInv (nodes : List WNode) (edges : List WEdge) (s : KahnState) : Prop where
  sub_result : ∀ k ∈ s.result, k ∈ nodeIds nodes
  sub_queue : ∀ k ∈ s.queue, k ∈ nodeIds nodes
  nodup : (s.result ++ s.queue).Nodup
  keys_nodup : (keysOf s.inDegree).Nodup
  keys_mem : ∀ k, k ∈ keysOf s.inDegree ↔ k ∈ nodeIds nodes
  deg_spec : ∀ k ∈ nodeIds nodes,
    (mapGet s.inDegree k).getD 0 = (remInDeg edges s.result k : Int)
  queue_iff : ∀ k ∈ nodeIds nodes,
    (k ∈ s.queue ↔ remInDeg edges s.result k = 0 ∧ k ∉ s.result)
  sorted : ∀ e ∈ edges, e.target ∈ s.result →
    e.source ∈ s.result ∧ s.result.indexOf e.source < s.result.indexOf e.target

/-- The step id an event is about. -/
def eventId {V : Type} : Event V → String
  | .status i _ => i
  | .updateOutput i _ => i
  | .updateError i _ => i

/-- The executionData accumulated by a run over a prefix of the execution
order in which every dispatched handler succeeds. -/
def prefixData {V : Type} (nodes : List WNode) (handler : WNode → HOutcome V) :
    List String → List (String × Option V) → List (String × Option V)
  | [], ed => ed
  | nodeId :: rest, ed =>
      match nodes.find? (fun n => n.id = nodeId) with
      | none => prefixData nodes handler rest ed
      | some node =>
          prefixData nodes handler rest (mapSet ed nodeId (executeNode handler node).1.data)

/-- The events emitted by a run over a prefix of the execution order in
which every dispatched handler succeeds. -/
def prefixEvents {V : Type} (nodes : List WNode) (handler : WNode → HOutcome V) :
    List String → List (Event V)
  | [] => []
  | nodeId :: rest =>
      match nodes.find? (fun n => n.id = nodeId) with
      | none => prefixEvents nodes handler rest
      | some node => (executeNode handler node).2 ++ prefixEvents nodes handler rest

/-- Invariant tying the executionData map to the event trace: an entry is
present for a step iff that step emitted a Success status, entries hold
exactly the successful handler's data, and a step that emitted an Error
status has no entry. -/
structure EdInv {V : Type} (nodes : List WNode) (handler : WNode → HOutcome V)
    (ed : List (String × Option V)) (evs : List (Event V)) : Prop where
  nodupKeys : (keysOf ed).Nodup
  succ_iff : ∀ id, id ∈ keysOf ed ↔ Event.status id Status.success ∈ evs
  val_spec : ∀ id dv, (id, dv) ∈ ed →
    ∃ n, nodes.find? (fun x => x.id = id) = some n ∧
      ∃ d, handler n = HOutcome.ok d ∧ dv = some d
  err_not : ∀ id, Event.status id Status.error ∈ evs → id ∉ keysOf ed

/-! ## Theorems

All definitions are above; everything from here on is proof.  First the
association-list lemmas, then the claim-by-claim developments. -/

theorem mapGet_nil {α : Type} (k : String) : mapGet ([] : List (String × α)) k = none := rfl

theorem mapGet_cons {α : Type} (k' : String) (v' : α) (rest : List (String × α)) (k : String) :
    mapGet ((k', v') :: rest) k = if k' = k then some v' else mapGet rest k := by
  by_cases h : k' = k <;> simp [mapGet, List.find?, h]

theorem mapGet_mapSet {α : Type} (m : List (String × α)) (k : String) (v : α) (k' : String) :
    mapGet (mapSet m k v) k' = if k = k' then some v else mapGet m k' := by
  induction m with
  | nil =>
      by_cases h : k = k' <;> simp [mapSet, mapGet_cons, mapGet_nil, h]
  | cons p rest ih =>
      obtain ⟨pk, pv⟩ := p
      by_cases hpk : pk = k
      · subst hpk
        by_cases h : pk = k' <;> simp [mapSet, mapGet_cons, h]
      · by_cases h : pk = k'
        · subst h
          have hkk' : ¬ k = pk := fun hh => hpk hh.symm
          simp [mapSet, hpk, mapGet_cons, hkk']
        · simp [mapSet, hpk, mapGet_cons, h, ih]

theorem keysOf_nil {α : Type} : keysOf ([] : List (String × α)) = [] := rfl

theorem keysOf_cons {α : Type} (p : String × α) (rest : List (String × α)) :
    keysOf (p :: rest) = p.1 :: keysOf rest := rfl

theorem keysOf_append {α : Type} (m₁ m₂ : List (String × α)) :
    keysOf (m₁ ++ m₂) = keysOf m₁ ++ keysOf m₂ := by
  simp [keysOf]

theorem keysOf_mapSet_of_mem {α : Type} (m : List (String × α)) (k : String) (v : α)
    (h : k ∈ keysOf m) : keysOf (mapSet m k v) = keysOf m := by
  induction m with
  | nil => cases h
  | cons p rest ih =>
      obtain ⟨pk, pv⟩ := p
      by_cases hpk : pk = k
      · subst hpk; simp [mapSet, keysOf]
      · have hmem : k ∈ keysOf rest := by
          rw [keysOf_cons] at h
          rcases List.mem_cons.mp h with h | h
          · exact absurd h.symm hpk
          · exact h
        simp only [mapSet, if_neg hpk, keysOf_cons]
        rw [ih hmem]

theorem keysOf_mapSet_of_not_mem {α : Type} (m : List (String × α)) (k : String) (v : α)
    (h : k ∉ keysOf m) : keysOf (mapSet m k v) = keysOf m ++ [k] := by
  induction m with
  | nil => simp [mapSet, keysOf]
  | cons p rest ih =>
      obtain ⟨pk, pv⟩ := p
      have hpk : ¬ pk = k := by
        intro hh; exact h (by rw [keysOf_cons]; exact List.mem_cons.mpr (Or.inl hh.symm))
      have hrest : k ∉ keysOf rest := by
        intro hh; exact h (by rw [keysOf_cons]; exact List.mem_cons.mpr (Or.inr hh))
      simp only [mapSet, if_neg hpk, keysOf_cons]
      rw [ih hrest]
      rfl

theorem mapSet_eq_append_of_not_mem {α : Type} (m : List (String × α)) (k : String) (v : α)
    (h : k ∉ keysOf m) : mapSet m k v = m ++ [(k, v)] := by
  induction m with
  | nil => simp [mapSet]
  | cons p rest ih =>
      obtain ⟨pk, pv⟩ := p
      have hpk : ¬ pk = k := by
        intro hh; exact h (by rw [keysOf_cons]; exact List.mem_cons.mpr (Or.inl hh.symm))
      have hrest : k ∉ keysOf rest := by
        intro hh; exact h (by rw [keysOf_cons]; exact List.mem_cons.mpr (Or.inr hh))
      simp only [mapSet, if_neg hpk]
      rw [ih hrest]
      rfl

theorem mapGet_eq_none_iff {α : Type} (m : List (String × α)) (k : String) :
    mapGet m k = none ↔ k ∉ keysOf m := by
  induction m with
  | nil => simp [mapGet_nil, keysOf]
  | cons p rest ih =>
      obtain ⟨pk, pv⟩ := p
      rw [mapGet_cons, keysOf_cons]
      by_cases h : pk = k
      · subst h
        simp
      · rw [if_neg h, ih]
        constructor
        · intro hk hmem
          rcases List.mem_cons.mp hmem with hm | hm
          · exact h hm.symm
          · exact hk hm
        · intro hk hm
          exact hk (List.mem_cons.mpr (Or.inr hm))

theorem mapGet_isSome_of_mem {α : Type} (m : List (String × α)) (k : String)
    (h : k ∈ keysOf m) : ∃ v, mapGet m k = some v := by
  cases hg : mapGet m k with
  | none => exact absurd ((mapGet_eq_none_iff m k).mp hg) (by simp [h])
  | some v => exact ⟨v, rfl⟩

theorem mem_keysOf_of_mapGet {α : Type} {m : List (String × α)} {k : String} {v : α}
    (h : mapGet m k = some v) : k ∈ keysOf m := by
  by_contra hk
  rw [(mapGet_eq_none_iff m k).mpr hk] at h
  cases h

theorem length_mapSet_le {α : Type} (m : List (String × α)) (k : String) (v : α) :
    (mapSet m k v).length ≤ m.length + 1 := by
  induction m with
  | nil => simp [mapSet]
  | cons p rest ih =>
      obtain ⟨pk, pv⟩ := p
      by_cases h : pk = k <;> simp [mapSet, h]
      omega

theorem mem_mapSet {α : Type} {m : List (String × α)} {k : String} {v : α} {p : String × α}
    (h : p ∈ mapSet m k v) : p = (k, v) ∨ p ∈ m := by
  induction m with
  | nil => simp [mapSet] at h; exact Or.inl h
  | cons q rest ih =>
      obtain ⟨qk, qv⟩ := q
      by_cases hq : qk = k
      · simp [mapSet, hq] at h
        rcases h with h | h
        · exact Or.inl h
        · exact Or.inr (by simp [h])
      · simp [mapSet, hq] at h
        rcases h with h | h
        · exact Or.inr (by simp [h])
        · rcases ih h with h' | h'
          · exact Or.inl h'
          · exact Or.inr (by simp [h'])

/-! ### The build phase of buildExecutionOrder -/

theorem nodup_keysOf_mapSet {α : Type} (m : List (String × α)) (k : String) (v : α)
    (h : (keysOf m).Nodup) : (keysOf (mapSet m k v)).Nodup := by
  by_cases hk : k ∈ keysOf m
  · rw [keysOf_mapSet_of_mem m k v hk]; exact h
  · rw [keysOf_mapSet_of_not_mem m k v hk]
    simp [List.nodup_append, h, hk]

theorem initDegAdj_deg (nodes : List WNode) :
    ∀ k, mapGet (initDegAdj nodes).1 k = if k ∈ nodeIds nodes then some 0 else none := by
  have main : ∀ (ns : List WNode) (st : List (String × Int) × List (String × List String)) k,
      mapGet (ns.foldl (fun st n => (mapSet st.1 n.id 0, mapSet st.2 n.id [])) st).1 k =
        if k ∈ nodeIds ns then some 0 else mapGet st.1 k := by
    intro ns
    induction ns with
    | nil => intro st k; simp [nodeIds]
    | cons n rest ih =>
        intro st k
        rw [List.foldl_cons, ih]
        rw [show nodeIds (n :: rest) = n.id :: nodeIds rest from rfl]
        by_cases hmem : k ∈ nodeIds rest
        · rw [if_pos hmem, if_pos (List.mem_cons.mpr (Or.inr hmem))]
        · rw [if_neg hmem, mapGet_mapSet]
          by_cases hid : n.id = k
          · rw [if_pos hid, if_pos (List.mem_cons.mpr (Or.inl hid.symm))]
          · rw [if_neg hid, if_neg]
            intro hc
            rcases List.mem_cons.mp hc with hc | hc
            · exact hid hc.symm
            · exact hmem hc
  intro k
  rw [initDegAdj, main]
  by_cases hmem : k ∈ nodeIds nodes <;> simp [hmem, mapGet_nil]

theorem initDegAdj_adj (nodes : List WNode) :
    ∀ k, mapGet (initDegAdj nodes).2 k = if k ∈ nodeIds nodes then some [] else none := by
  have main : ∀ (ns : List WNode) (st : List (String × Int) × List (String × List String)) k,
      mapGet (ns.foldl (fun st n => (mapSet st.1 n.id 0, mapSet st.2 n.id [])) st).2 k =
        if k ∈ nodeIds ns then some [] else mapGet st.2 k := by
    intro ns
    induction ns with
    | nil => intro st k; simp [nodeIds]
    | cons n rest ih =>
        intro st k
        rw [List.foldl_cons, ih]
        rw [show nodeIds (n :: rest) = n.id :: nodeIds rest from rfl]
        by_cases hmem : k ∈ nodeIds rest
        · rw [if_pos hmem, if_pos (List.mem_cons.mpr (Or.inr hmem))]
        · rw [if_neg hmem, mapGet_mapSet]
          by_cases hid : n.id = k
          · rw [if_pos hid, if_pos (List.mem_cons.mpr (Or.inl hid.symm))]
          · rw [if_neg hid, if_neg]
            intro hc
            rcases List.mem_cons.mp hc with hc | hc
            · exact hid hc.symm
            · exact hmem hc
  intro k
  rw [initDegAdj, main]
  by_cases hmem : k ∈ nodeIds nodes <;> simp [hmem, mapGet_nil]

theorem initDegAdj_keys_nodup (nodes : List WNode) :
    (keysOf (initDegAdj nodes).1).Nodup := by
  have main : ∀ (ns : List WNode) (st : List (String × Int) × List (String × List String)),
      (keysOf st.1).Nodup →
      (keysOf (ns.foldl (fun st n => (mapSet st.1 n.id 0, mapSet st.2 n.id [])) st).1).Nodup := by
    intro ns
    induction ns with
    | nil => intro st h; exact h
    | cons n rest ih =>
        intro st h
        rw [List.foldl_cons]
        exact ih _ (nodup_keysOf_mapSet _ _ _ h)
  exact main nodes ([], []) (by simp [keysOf])

theorem addEdges_deg (edges : List WEdge) :
    ∀ (st : List (String × Int) × List (String × List String)) (k : String),
      (mapGet (addEdges edges st).1 k).getD 0 =
        (mapGet st.1 k).getD 0 + (edges.countP (fun e => decide (e.target = k)) : Int) := by
  induction edges with
  | nil => intro st k; simp [addEdges]
  | cons e es ih =>
      intro st k
      rw [addEdges, List.foldl_cons]
      rw [show (es.foldl _ _) = addEdges es
        ((mapSet st.1 e.target ((mapGet st.1 e.target).getD 0 + 1),
          match mapGet st.2 e.source with
          | some lst => mapSet st.2 e.source (lst ++ [e.target])
          | none => st.2)) from rfl]
      rw [ih]
      rw [List.countP_cons]
      by_cases ht : e.target = k
      · subst ht
        rw [mapGet_mapSet]
        simp only [if_pos rfl]
        simp
        omega
      · rw [mapGet_mapSet, if_neg ht]
        have : (decide (e.target = k)) = false := by simp [ht]
        rw [this]
        simp

theorem addEdges_keys_mem (edges : List WEdge) :
    ∀ (st : List (String × Int) × List (String × List String)) (k : String),
      k ∈ keysOf (addEdges edges st).1 ↔
        k ∈ keysOf st.1 ∨ ∃ e ∈ edges, e.target = k := by
  induction edges with
  | nil => intro st k; simp [addEdges]
  | cons e es ih =>
      intro st k
      rw [addEdges, List.foldl_cons]
      rw [show (es.foldl _ _) = addEdges es
        ((mapSet st.1 e.target ((mapGet st.1 e.target).getD 0 + 1),
          match mapGet st.2 e.source with
          | some lst => mapSet st.2 e.source (lst ++ [e.target])
          | none => st.2)) from rfl]
      rw [ih]
      constructor
      · rintro (hk | ⟨e', he', rfl⟩)
        · by_cases hmem : e.target ∈ keysOf st.1
          · rw [keysOf_mapSet_of_mem _ _ _ hmem] at hk
            exact Or.inl hk
          · rw [keysOf_mapSet_of_not_mem _ _ _ hmem] at hk
            rcases List.mem_append.mp hk with hk | hk
            · exact Or.inl hk
            · exact Or.inr ⟨e, List.mem_cons_self _ _, (List.mem_singleton.mp hk).symm⟩
        · exact Or.inr ⟨e', List.mem_cons_of_mem _ he', rfl⟩
      · rintro (hk | ⟨e', he', rfl⟩)
        · left
          by_cases hmem : e.target ∈ keysOf st.1
          · rw [keysOf_mapSet_of_mem _ _ _ hmem]; exact hk
          · rw [keysOf_mapSet_of_not_mem _ _ _ hmem]
            exact List.mem_append.mpr (Or.inl hk)
        · rcases List.mem_cons.mp he' with he | he
          · subst he
            left
            by_cases hmem : e'.target ∈ keysOf st.1
            · rw [keysOf_mapSet_of_mem _ _ _ hmem]; exact hmem
            · rw [keysOf_mapSet_of_not_mem _ _ _ hmem]
              exact List.mem_append.mpr (Or.inr (List.mem_singleton.mpr rfl))
          · exact Or.inr ⟨e', he, rfl⟩

theorem addEdges_keys_nodup (edges : List WEdge) :
    ∀ (st : List (String × Int) × List (String × List String)),
      (keysOf st.1).Nodup → (keysOf (addEdges edges st).1).Nodup := by
  induction edges with
  | nil => intro st h; exact h
  | cons e es ih =>
      intro st h
      rw [addEdges, List.foldl_cons]
      rw [show (es.foldl _ _) = addEdges es
        ((mapSet st.1 e.target ((mapGet st.1 e.target).getD 0 + 1),
          match mapGet st.2 e.source with
          | some lst => mapSet st.2 e.source (lst ++ [e.target])
          | none => st.2)) from rfl]
      exact ih _ (nodup_keysOf_mapSet _ _ _ h)

theorem addEdges_adj (edges : List WEdge) :
    ∀ (st : List (String × Int) × List (String × List String)) (u : String),
      mapGet (addEdges edges st).2 u =
        (mapGet st.2 u).map
          (fun l0 => l0 ++ (edges.filter (fun e => decide (e.source = u))).map WEdge.target) := by
  induction edges with
  | nil => intro st u; cases hg : mapGet st.2 u <;> simp [addEdges, hg]
  | cons e es ih =>
      intro st u
      rw [addEdges, List.foldl_cons]
      rw [show (es.foldl _ _) = addEdges es
        ((mapSet st.1 e.target ((mapGet st.1 e.target).getD 0 + 1),
          match mapGet st.2 e.source with
          | some lst => mapSet st.2 e.source (lst ++ [e.target])
          | none => st.2)) from rfl]
      rw [ih]
      by_cases hsrc : e.source = u
      · subst hsrc
        cases hg : mapGet st.2 e.source with
        | none =>
            simp only [hg]
            simp
        | some l0 =>
            simp only [hg]
            rw [mapGet_mapSet, if_pos rfl]
            simp [List.filter_cons, hg]

      · cases hg : mapGet st.2 e.source with
        | none =>
            simp only [hg]
            have : (decide (e.source = u)) = false := by simp [hsrc]
            simp [List.filter_cons, this]
        | some l0 =>
            simp only [hg]
            rw [mapGet_mapSet, if_neg hsrc]
            have : (decide (e.source = u)) = false := by simp [hsrc]
            simp [List.filter_cons, this]

/-! ### The seeding of the queue -/

theorem initialQueue_sublist_keys (m : List (String × Int)) :
    (initialQueue m).Sublist (keysOf m) := by
  exact (List.filter_sublist m).map Prod.fst

theorem initialQueue_nodup (m : List (String × Int)) (h : (keysOf m).Nodup) :
    (initialQueue m).Nodup :=
  h.sublist (initialQueue_sublist_keys m)

theorem mem_initialQueue_iff (m : List (String × Int)) (hnd : (keysOf m).Nodup) (k : String) :
    k ∈ initialQueue m ↔ mapGet m k = some 0 := by
  induction m with
  | nil => simp [initialQueue, mapGet_nil]
  | cons p rest ih =>
      obtain ⟨pk, pv⟩ := p
      rw [keysOf_cons] at hnd
      have hnd' := hnd.of_cons
      have hpk_not : pk ∉ keysOf rest := by
        intro hc
        exact (List.nodup_cons.mp hnd).1 hc
      rw [mapGet_cons]
      by_cases hv : pv = 0
      · subst hv
        by_cases hk : pk = k
        · subst hk
          constructor
          · intro _; simp
          · intro _
            simp [initialQueue, List.filter_cons]
        · rw [if_neg hk]
          rw [show initialQueue ((pk, 0) :: rest) = pk :: initialQueue rest from by
            simp [initialQueue, List.filter_cons]]
          rw [List.mem_cons]
          constructor
          · rintro (hc | hc)
            · exact absurd hc.symm hk
            · exact (ih hnd').mp hc
          · intro hc
            exact Or.inr ((ih hnd').mpr hc)
      · rw [show initialQueue ((pk, pv) :: rest) = initialQueue rest from by
          simp [initialQueue, List.filter_cons, hv]]
        by_cases hk : pk = k
        · subst hk
          rw [if_pos rfl]
          constructor
          · intro hc
            have : pk ∈ keysOf rest :=
              List.Sublist.mem hc (initialQueue_sublist_keys rest)
            exact absurd this hpk_not
          · intro hc
            exact absurd (Option.some.inj hc) hv
        · rw [if_neg hk]
          exact ih hnd'

/-! ### Termination of the while loop -/

theorem valSum_nil : valSum [] = 0 := rfl

theorem valSum_mapSet (m : List (String × Int)) (k : String) (v : Int) :
    valSum (mapSet m k v) + ((mapGet m k).getD 0).toNat = valSum m + v.toNat := by
  induction m with
  | nil => simp [mapSet, valSum, mapGet_nil]
  | cons p rest ih =>
      obtain ⟨pk, pv⟩ := p
      rw [mapGet_cons]
      by_cases hk : pk = k
      · subst hk
        rw [if_pos rfl]
        simp [mapSet, valSum]
        omega
      · rw [if_neg hk]
        simp only [mapSet, if_neg hk]
        simp [valSum] at ih ⊢
        omega

theorem processNeighbor_snd (st : List String × List (String × Int)) (n : String) :
    (processNeighbor st n).2 = mapSet st.2 n ((mapGet st.2 n).getD 0 - 1) := by
  unfold processNeighbor
  by_cases h : (mapGet st.2 n).getD 0 - 1 = 0 <;> simp [h]

theorem processNeighbor_fst (st : List String × List (String × Int)) (n : String) :
    (processNeighbor st n).1 =
      if (mapGet st.2 n).getD 0 - 1 = 0 then st.1 ++ [n] else st.1 := by
  unfold processNeighbor
  by_cases h : (mapGet st.2 n).getD 0 - 1 = 0 <;> simp [h]

theorem phiQD_processNeighbor (st : List String × List (String × Int)) (n : String) :
    phiQD (processNeighbor st n) ≤ phiQD st := by
  obtain ⟨q, m⟩ := st
  have hsum := valSum_mapSet m n ((mapGet m n).getD 0 - 1)
  have hphi : phiQD (processNeighbor (q, m) n) =
      (processNeighbor (q, m) n).1.length + valSum (processNeighbor (q, m) n).2 := rfl
  rw [hphi, processNeighbor_fst, processNeighbor_snd]
  unfold phiQD
  by_cases h0 : (mapGet (q, m).2 n).getD 0 - 1 = 0
  · rw [if_pos h0]
    simp only [List.length_append, List.length_singleton]
    have : ((mapGet m n).getD 0).toNat = 1 := by
      simp only at h0
      omega
    simp only at h0 hsum ⊢
    omega
  · rw [if_neg h0]
    simp only at h0 hsum ⊢
    have h1 : ((mapGet m n).getD 0 - 1).toNat ≤ ((mapGet m n).getD 0).toNat := by omega
    omega

theorem phiQD_foldPN (N : List String) :
    ∀ st : List String × List (String × Int),
      phiQD (N.foldl processNeighbor st) ≤ phiQD st := by
  induction N with
  | nil => intro st; simp
  | cons n N2 ih =>
      intro st
      rw [List.foldl_cons]
      exact le_trans (ih _) (phiQD_processNeighbor st n)

theorem phiQD_step (q : List String) (m : List (String × Int)) (v : String)
    (N : List String) :
    phiQD (N.foldl processNeighbor (q, m)) ≤ phiQD (v :: q, m) - 1 := by
  have := phiQD_foldPN N (q, m)
  unfold phiQD at this ⊢
  simp at this ⊢
  omega

theorem kahnLoop_drains (adj : List (String × List String)) :
    ∀ (fuel : Nat) (s : KahnState),
      phiQD (s.queue, s.inDegree) < fuel → (kahnLoop adj fuel s).queue = [] := by
  intro fuel
  induction fuel with
  | zero => intro s h; omega
  | succ fuel ih =>
      intro s h
      rw [kahnLoop]
      cases hq : s.queue with
      | nil => exact hq
      | cons v rest =>
          apply ih
          have hle := phiQD_step rest s.inDegree v ((mapGet adj v).getD [])
          have : phiQD (v :: rest, s.inDegree) = phiQD (s.queue, s.inDegree) := by
            rw [hq]
          unfold phiQD at h hle this ⊢
          simp at h hle this ⊢
          omega

/-! ### The relaxation fold over a dequeued node's neighbours -/

theorem foldPN_deg (N : List String) :
    ∀ (q : List String) (m : List (String × Int)) (k : String),
      (mapGet (N.foldl processNeighbor (q, m)).2 k).getD 0 =
        (mapGet m k).getD 0 - (N.countP (fun x => decide (x = k)) : Int) := by
  induction N with
  | nil => intro q m k; simp
  | cons n N2 ih =>
      intro q m k
      rw [List.foldl_cons]
      have hpair : processNeighbor (q, m) n =
          ((processNeighbor (q, m) n).1, mapSet m n ((mapGet m n).getD 0 - 1)) := by
        rw [← processNeighbor_snd (q, m) n]
      rw [hpair, ih, List.countP_cons]
      rw [mapGet_mapSet]
      by_cases hk : n = k
      · subst hk
        rw [if_pos rfl]
        simp
        omega
      · rw [if_neg hk]
        have : (decide (n = k)) = false := by simp [hk]
        rw [this]
        simp

theorem foldPN_keys (N : List String) :
    ∀ (q : List String) (m : List (String × Int)),
      (∀ n ∈ N, n ∈ keysOf m) →
      keysOf (N.foldl processNeighbor (q, m)).2 = keysOf m := by
  induction N with
  | nil => intro q m _; rfl
  | cons n N2 ih =>
      intro q m hmem
      rw [List.foldl_cons]
      have hpair : processNeighbor (q, m) n =
          ((processNeighbor (q, m) n).1, mapSet m n ((mapGet m n).getD 0 - 1)) := by
        rw [← processNeighbor_snd (q, m) n]
      rw [hpair]
      have hkeys : keysOf (mapSet m n ((mapGet m n).getD 0 - 1)) = keysOf m :=
        keysOf_mapSet_of_mem m n _ (hmem n (List.mem_cons_self _ _))
      rw [ih _ _ (fun x hx => by rw [hkeys]; exact hmem x (List.mem_cons_of_mem _ hx))]
      exact hkeys

theorem foldPN_queue_mem (N : List String) :
    ∀ (q : List String) (m : List (String × Int)) (k : String),
      (k ∈ (N.foldl processNeighbor (q, m)).1 ↔
        k ∈ q ∨ (1 ≤ (mapGet m k).getD 0 ∧
          (mapGet m k).getD 0 ≤ (N.countP (fun x => decide (x = k)) : Int))) := by
  induction N with
  | nil =>
      intro q m k
      simp
      intro h1 h2
      omega
  | cons n N2 ih =>
      intro q m k
      rw [List.foldl_cons]
      have hsplit : processNeighbor (q, m) n =
          (if (mapGet m n).getD 0 - 1 = 0 then q ++ [n] else q,
           mapSet m n ((mapGet m n).getD 0 - 1)) := by
        rw [← processNeighbor_fst (q, m) n, ← processNeighbor_snd (q, m) n]
      rw [hsplit, ih, List.countP_cons]
      by_cases hk : n = k
      · subst hk
        have hdec : (decide (n = n)) = true := by simp
        rw [hdec, mapGet_mapSet, if_pos rfl]
        simp only [Option.getD_some]
        by_cases h1 : (mapGet m n).getD 0 - 1 = 0
        · rw [if_pos h1]
          constructor
          · intro _
            right
            constructor
            · omega
            · push_cast
              omega
          · intro _
            left
            exact List.mem_append.mpr (Or.inr (List.mem_singleton.mpr rfl))
        · rw [if_neg h1]
          constructor
          · rintro (hq | ⟨ha, hb⟩)
            · exact Or.inl hq
            · right
              constructor
              · omega
              · push_cast at hb ⊢
                omega
          · rintro (hq | ⟨ha, hb⟩)
            · exact Or.inl hq
            · right
              constructor
              · omega
              · push_cast at hb ⊢
                omega
      · have hdec : (decide (n = k)) = false := by simp [hk]
        rw [hdec, mapGet_mapSet, if_neg hk]
        by_cases h1 : (mapGet m n).getD 0 - 1 = 0
        · rw [if_pos h1]
          have hqmem : k ∈ q ++ [n] ↔ k ∈ q := by
            rw [List.mem_append, List.mem_singleton]
            constructor
            · rintro (h | h)
              · exact h
              · exact absurd h.symm hk
            · exact Or.inl
          rw [hqmem]
          simp
        · rw [if_neg h1]
          simp

theorem countP_eq_cons_self (n : String) (N : List String) :
    (n :: N).countP (fun x => decide (x = n)) = N.countP (fun x => decide (x = n)) + 1 := by
  rw [List.countP_cons]
  simp

theorem countP_eq_cons_ne (n k : String) (N : List String) (h : ¬ n = k) :
    (n :: N).countP (fun x => decide (x = k)) = N.countP (fun x => decide (x = k)) := by
  rw [List.countP_cons]
  simp [h]

theorem foldPN_queue_struct (N : List String) :
    ∀ (q : List String) (m : List (String × Int)),
      ∃ E, (N.foldl processNeighbor (q, m)).1 = q ++ E ∧ E.Nodup ∧
        (∀ k ∈ E, k ∈ N ∧ 1 ≤ (mapGet m k).getD 0 ∧
          (mapGet m k).getD 0 ≤ (N.countP (fun x => decide (x = k)) : Int)) := by
  induction N with
  | nil => intro q m; exact ⟨[], by simp, List.nodup_nil, by simp⟩
  | cons n N2 ih =>
      intro q m
      rw [List.foldl_cons]
      have hsplit : processNeighbor (q, m) n =
          (if (mapGet m n).getD 0 - 1 = 0 then q ++ [n] else q,
           mapSet m n ((mapGet m n).getD 0 - 1)) := by
        rw [← processNeighbor_fst (q, m) n, ← processNeighbor_snd (q, m) n]
      rw [hsplit]
      by_cases h1 : (mapGet m n).getD 0 - 1 = 0
      · rw [if_pos h1]
        obtain ⟨E2, hE2, hnd2, hprops2⟩ := ih (q ++ [n]) (mapSet m n ((mapGet m n).getD 0 - 1))
        have hnotE2 : n ∉ E2 := by
          intro hmem
          have := (hprops2 n hmem).2.1
          rw [mapGet_mapSet, if_pos rfl] at this
          simp only [Option.getD_some] at this
          omega
        refine ⟨n :: E2, ?_, List.nodup_cons.mpr ⟨hnotE2, hnd2⟩, ?_⟩
        · rw [hE2, List.append_assoc]
          rfl
        · intro k hk
          rcases List.mem_cons.mp hk with hkn | hk2
          · refine ⟨?_, ?_, ?_⟩
            · rw [hkn]; exact List.mem_cons_self _ _
            · rw [hkn]; omega
            · rw [hkn, countP_eq_cons_self]
              push_cast
              omega
          · have hkn : ¬ k = n := fun hc => hnotE2 (hc ▸ hk2)
            obtain ⟨hmemN, hlo, hhi⟩ := hprops2 k hk2
            rw [mapGet_mapSet, if_neg (fun hc : n = k => hkn hc.symm)] at hlo hhi
            refine ⟨List.mem_cons_of_mem _ hmemN, hlo, ?_⟩
            rw [countP_eq_cons_ne n k N2 (fun hc : n = k => hkn hc.symm)]
            exact hhi
      · rw [if_neg h1]
        obtain ⟨E2, hE2, hnd2, hprops2⟩ := ih q (mapSet m n ((mapGet m n).getD 0 - 1))
        refine ⟨E2, hE2, hnd2, ?_⟩
        intro k hk
        obtain ⟨hmemN, hlo, hhi⟩ := hprops2 k hk
        by_cases hkn : k = n
        · rw [hkn] at hlo hhi ⊢
          rw [mapGet_mapSet, if_pos rfl] at hlo hhi
          simp only [Option.getD_some] at hlo hhi
          refine ⟨List.mem_cons_self _ _, by omega, ?_⟩
          rw [countP_eq_cons_self]
          push_cast at hhi ⊢
          omega
        · rw [mapGet_mapSet, if_neg (fun hc : n = k => hkn hc.symm)] at hlo hhi
          refine ⟨List.mem_cons_of_mem _ hmemN, hlo, ?_⟩
          rw [countP_eq_cons_ne n k N2 (fun hc : n = k => hkn hc.symm)]
          exact hhi

/-! ### Remaining in-degrees -/

theorem countP_split {α : Type} (l : List α) (p q : α → Bool) :
    l.countP p = l.countP (fun a => p a && q a) + l.countP (fun a => p a && !q a) := by
  induction l with
  | nil => simp
  | cons a l ih =>
      rw [List.countP_cons, List.countP_cons, List.countP_cons]
      by_cases hp : p a <;> by_cases hq : q a <;> simp [hp, hq] <;> omega

theorem countP_congr_fun {α : Type} (l : List α) (p q : α → Bool)
    (h : ∀ a ∈ l, p a = q a) : l.countP p = l.countP q := by
  induction l with
  | nil => simp
  | cons a l ih =>
      rw [List.countP_cons, List.countP_cons, h a (List.mem_cons_self _ _),
        ih (fun a ha => h a (List.mem_cons_of_mem _ ha))]

theorem remInDeg_nil_res (edges : List WEdge) (k : String) :
    remInDeg edges [] k = edges.countP (fun e => decide (e.target = k)) := by
  unfold remInDeg
  exact countP_congr_fun _ _ _ (fun e _ => by simp)

theorem remInDeg_append (edges : List WEdge) (res : List String) (v : String)
    (hv : v ∉ res) (k : String) :
    remInDeg edges res k =
      remInDeg edges (res ++ [v]) k +
        edges.countP (fun e => decide (e.source = v ∧ e.target = k)) := by
  unfold remInDeg
  rw [countP_split edges (fun e => decide (e.target = k ∧ e.source ∉ res))
    (fun e => decide (e.source = v))]
  have h1 : edges.countP
      (fun e => decide (e.target = k ∧ e.source ∉ res) && decide (e.source = v)) =
      edges.countP (fun e => decide (e.source = v ∧ e.target = k)) := by
    apply countP_congr_fun
    intro e _
    by_cases ht : e.target = k <;> by_cases hs : e.source = v
    · simp only [ht, hs]
      simp [hv]
    · simp [ht, hs]
    · simp [ht, hs]
    · simp [ht, hs]
  have h2 : edges.countP
      (fun e => decide (e.target = k ∧ e.source ∉ res) && !decide (e.source = v)) =
      edges.countP (fun e => decide (e.target = k ∧ e.source ∉ res ++ [v])) := by
    apply countP_congr_fun
    intro e _
    by_cases ht : e.target = k <;> by_cases hs : e.source = v
    · have : e.source ∈ res ++ [v] := by
        rw [List.mem_append, List.mem_singleton]
        exact Or.inr hs
      simp [ht, hs, this]
    · have : e.source ∈ res ++ [v] ↔ e.source ∈ res := by
        rw [List.mem_append, List.mem_singleton]
        exact ⟨fun h => h.resolve_right hs, Or.inl⟩
      by_cases hin : e.source ∈ res <;> simp [ht, hs, hin, this]
    · simp [ht, hs]
    · simp [ht, hs]
  rw [h1, h2]
  omega

theorem remInDeg_eq_zero_iff (edges : List WEdge) (res : List String) (k : String) :
    remInDeg edges res k = 0 ↔ ∀ e ∈ edges, e.target = k → e.source ∈ res := by
  unfold remInDeg
  rw [List.countP_eq_zero]
  constructor
  · intro h e he ht
    have := h e he
    by_contra hs
    exact this (by simp [ht, hs])
  · intro h e he
    by_cases ht : e.target = k
    · have := h e he ht
      simp [ht, this]
    · simp [ht]

/-! ### Kahn loop invariant: preservation -/

theorem sorted_remInDeg_zero (nodes : List WNode) (edges : List WEdge) (s : KahnState)
    (hInv : KahnInv nodes edges s) (k : String) (hk : k ∈ s.result) :
    remInDeg edges s.result k = 0 := by
  rw [remInDeg_eq_zero_iff]
  intro e he ht
  exact ((hInv.sorted e he) (ht ▸ hk)).1

theorem kahnInv_step (nodes : List WNode) (edges : List WEdge)
    (hWF : EdgesWellFormed nodes edges) (adj : List (String × List String))
    (hadj : ∀ u ∈ nodeIds nodes, mapGet adj u =
      some ((edges.filter (fun e => decide (e.source = u))).map WEdge.target))
    (s : KahnState) (hInv : KahnInv nodes edges s)
    (v : String) (rest : List String) (hq : s.queue = v :: rest) :
    KahnInv nodes edges
      ⟨(((mapGet adj v).getD []).foldl processNeighbor (rest, s.inDegree)).1,
       (((mapGet adj v).getD []).foldl processNeighbor (rest, s.inDegree)).2,
       s.result ++ [v]⟩ := by
  have hvq : v ∈ s.queue := by rw [hq]; exact List.mem_cons_self _ _
  have hvmem : v ∈ nodeIds nodes := hInv.sub_queue v hvq
  have hN : (mapGet adj v).getD [] =
      (edges.filter (fun e => decide (e.source = v))).map WEdge.target := by
    rw [hadj v hvmem]
    rfl
  set N := (edges.filter (fun e => decide (e.source = v))).map WEdge.target with hNdef
  have hcountN : ∀ k, N.countP (fun x => decide (x = k)) =
      edges.countP (fun e => decide (e.source = v ∧ e.target = k)) := by
    intro k
    rw [hNdef, List.countP_map, List.countP_filter]
    apply countP_congr_fun
    intro e _
    by_cases ht : e.target = k <;> by_cases hs : e.source = v <;>
      simp [Function.comp, ht, hs]
  have hNsub : ∀ x ∈ N, x ∈ nodeIds nodes := by
    intro x hx
    rw [hNdef] at hx
    obtain ⟨e, he, rfl⟩ := List.mem_map.mp hx
    exact (hWF e (List.mem_of_mem_filter he)).2
  have hvres : v ∉ s.result := by
    have hnd := hInv.nodup
    rw [hq, List.nodup_append] at hnd
    exact fun hc => hnd.2.2 hc (List.mem_cons_self _ _)
  have hrem := fun k => remInDeg_append edges s.result v hvres k
  have hvzero : remInDeg edges s.result v = 0 ∧ v ∉ s.result :=
    (hInv.queue_iff v hvmem).mp hvq
  have hrestq : ∀ k ∈ rest, k ∈ s.queue := by
    intro k hk
    rw [hq]
    exact List.mem_cons_of_mem _ hk
  -- result-members have remaining in-degree 0
  have hreszero : ∀ k, k ∈ s.result → remInDeg edges s.result k = 0 :=
    fun k hk => sorted_remInDeg_zero nodes edges s hInv k hk
  -- deg values are the remaining in-degrees
  have hdegval : ∀ k ∈ nodeIds nodes,
      (mapGet s.inDegree k).getD 0 = (remInDeg edges s.result k : Int) := hInv.deg_spec
  obtain ⟨E, hE, hndE, hpropsE⟩ := foldPN_queue_struct N rest s.inDegree
  rw [hN]
  constructor
  case sub_result =>
    intro k hk
    rcases List.mem_append.mp hk with hk | hk
    · exact hInv.sub_result k hk
    · rw [List.mem_singleton.mp hk]
      exact hvmem
  case sub_queue =>
    intro k hk
    rw [hE] at hk
    rcases List.mem_append.mp hk with hk | hk
    · exact hInv.sub_queue k (hrestq k hk)
    · exact hNsub k (hpropsE k hk).1
  case nodup =>
    rw [hE]
    -- the old state is nodup on result ++ v :: rest
    have hold := hInv.nodup
    rw [hq] at hold
    -- elements of E are fresh: their remaining in-degree is at least 1
    have hEfresh : ∀ k ∈ E, 1 ≤ remInDeg edges s.result k ∧ k ∈ nodeIds nodes := by
      intro k hk
      have h1 := (hpropsE k hk).2.1
      have hkmem := hNsub k (hpropsE k hk).1
      rw [hdegval k hkmem] at h1
      exact ⟨by exact_mod_cast h1, hkmem⟩
    have hEnotres : ∀ k ∈ E, k ∉ s.result := by
      intro k hk hc
      have := (hEfresh k hk).1
      rw [hreszero k hc] at this
      omega
    have hEnotq : ∀ k ∈ E, k ∉ s.queue := by
      intro k hk hc
      have hz := (hInv.queue_iff k (hEfresh k hk).2).mp hc
      have := (hEfresh k hk).1
      rw [hz.1] at this
      omega
    -- assemble
    show (s.result ++ [v] ++ (rest ++ E)).Nodup
    have hgoal : s.result ++ [v] ++ (rest ++ E) = (s.result ++ v :: rest) ++ E := by
      simp
    rw [hgoal, List.nodup_append]
    refine ⟨hold, hndE, ?_⟩
    intro a ha hb
    rcases List.mem_append.mp ha with ha | ha
    · exact hEnotres a hb ha
    · rcases List.mem_cons.mp ha with rfl | ha
      · exact hEnotq a hb hvq
      · exact hEnotq a hb (hrestq a ha)
  case keys_nodup =>
    rw [foldPN_keys N rest s.inDegree
      (fun n hn => (hInv.keys_mem n).mpr (hNsub n hn))]
    exact hInv.keys_nodup
  case keys_mem =>
    intro k
    rw [foldPN_keys N rest s.inDegree
      (fun n hn => (hInv.keys_mem n).mpr (hNsub n hn))]
    exact hInv.keys_mem k
  case deg_spec =>
    intro k hk
    show (mapGet ((List.foldl processNeighbor (rest, s.inDegree) N)).2 k).getD 0 =
      (remInDeg edges (s.result ++ [v]) k : Int)
    rw [foldPN_deg N rest s.inDegree k, hdegval k hk, hcountN k]
    have := hrem k
    omega
  case queue_iff =>
    intro k hk
    show k ∈ ((List.foldl processNeighbor (rest, s.inDegree) N)).1 ↔
      remInDeg edges (s.result ++ [v]) k = 0 ∧ k ∉ s.result ++ [v]
    rw [foldPN_queue_mem N rest s.inDegree k]
    have hknotv : k ∈ rest → k ≠ v := by
      intro hkrest hc
      have hnd := hInv.nodup
      rw [hq] at hnd
      have := (List.nodup_append.mp hnd).2.1
      rw [List.nodup_cons] at this
      exact this.1 (hc ▸ hkrest)
    constructor
    · rintro (hkrest | ⟨h1, h2⟩)
      · have hz := (hInv.queue_iff k hk).mp (hrestq k hkrest)
        have hrk := hrem k
        refine ⟨by omega, ?_⟩
        intro hc
        rcases List.mem_append.mp hc with hc | hc
        · exact hz.2 hc
        · exact hknotv hkrest (List.mem_singleton.mp hc)
      · rw [hdegval k hk] at h1 h2
        rw [hcountN k] at h2
        have hrk := hrem k
        have h1n : 1 ≤ remInDeg edges s.result k := by exact_mod_cast h1
        have h2n : remInDeg edges s.result k ≤
            edges.countP (fun e => decide (e.source = v ∧ e.target = k)) := by
          exact_mod_cast h2
        refine ⟨by omega, ?_⟩
        intro hc
        rcases List.mem_append.mp hc with hc | hc
        · have := hreszero k hc
          omega
        · rw [List.mem_singleton.mp hc] at h1n
          rw [hvzero.1] at h1n
          omega
    · rintro ⟨hz, hnotin⟩
      have hknor : k ∉ s.result := by
        intro hc
        exact hnotin (List.mem_append.mpr (Or.inl hc))
      have hkne : k ≠ v := by
        intro hc
        exact hnotin (List.mem_append.mpr (Or.inr (List.mem_singleton.mpr hc)))
      have hrk := hrem k
      by_cases hold : remInDeg edges s.result k = 0
      · have : k ∈ s.queue := (hInv.queue_iff k hk).mpr ⟨hold, hknor⟩
        rw [hq] at this
        rcases List.mem_cons.mp this with hc | hc
        · exact absurd hc hkne
        · exact Or.inl hc
      · right
        rw [hdegval k hk, hcountN k]
        constructor
        · have : 1 ≤ remInDeg edges s.result k := by omega
          exact_mod_cast this
        · have : remInDeg edges s.result k ≤
              edges.countP (fun e => decide (e.source = v ∧ e.target = k)) := by
            omega
          exact_mod_cast this
  case sorted =>
    intro e he htgt
    have hvall : ∀ e ∈ edges, e.target = v → e.source ∈ s.result :=
      (remInDeg_eq_zero_iff edges s.result v).mp hvzero.1
    rcases List.mem_append.mp htgt with hres | hlast
    · obtain ⟨hsrc, hidx⟩ := hInv.sorted e he hres
      refine ⟨List.mem_append.mpr (Or.inl hsrc), ?_⟩
      rw [List.indexOf_append_of_mem hsrc, List.indexOf_append_of_mem hres]
      exact hidx
    · have hev : e.target = v := List.mem_singleton.mp hlast
      have hsrc : e.source ∈ s.result := hvall e he hev
      refine ⟨List.mem_append.mpr (Or.inl hsrc), ?_⟩
      rw [List.indexOf_append_of_mem hsrc, hev,
        List.indexOf_append_of_not_mem hvres]
      have : s.result.indexOf e.source < s.result.length :=
        List.indexOf_lt_length.mpr hsrc
      simp
      omega

/-! ### Kahn loop invariant: initial state, preservation through the loop,
and size bounds for the fuel -/

theorem kahnLoop_inv (nodes : List WNode) (edges : List WEdge)
    (hWF : EdgesWellFormed nodes edges) (adj : List (String × List String))
    (hadj : ∀ u ∈ nodeIds nodes, mapGet adj u =
      some ((edges.filter (fun e => decide (e.source = u))).map WEdge.target)) :
    ∀ (fuel : Nat) (s : KahnState), KahnInv nodes edges s →
      KahnInv nodes edges (kahnLoop adj fuel s) := by
  intro fuel
  induction fuel with
  | zero => intro s h; exact h
  | succ fuel ih =>
      intro s h
      rw [kahnLoop]
      cases hq : s.queue with
      | nil => exact h
      | cons v rest =>
          exact ih _ (kahnInv_step nodes edges hWF adj hadj s h v rest hq)

theorem builtAdj_spec (nodes : List WNode) (edges : List WEdge) :
    ∀ u ∈ nodeIds nodes,
      mapGet (addEdges edges (initDegAdj nodes)).2 u =
        some ((edges.filter (fun e => decide (e.source = u))).map WEdge.target) := by
  intro u hu
  rw [addEdges_adj edges (initDegAdj nodes) u, initDegAdj_adj nodes u, if_pos hu]
  rfl

theorem builtDeg_keys_mem (nodes : List WNode) (edges : List WEdge)
    (hWF : EdgesWellFormed nodes edges) :
    ∀ k, k ∈ keysOf (addEdges edges (initDegAdj nodes)).1 ↔ k ∈ nodeIds nodes := by
  intro k
  rw [addEdges_keys_mem edges (initDegAdj nodes) k]
  have hinit : k ∈ keysOf (initDegAdj nodes).1 ↔ k ∈ nodeIds nodes := by
    constructor
    · intro hk
      by_contra hc
      have := (mapGet_eq_none_iff (initDegAdj nodes).1 k).mp
        (by rw [initDegAdj_deg nodes k, if_neg hc])
      exact this hk
    · intro hk
      apply mem_keysOf_of_mapGet (v := 0)
      rw [initDegAdj_deg nodes k, if_pos hk]
  rw [hinit]
  constructor
  · rintro (hk | ⟨e, he, rfl⟩)
    · exact hk
    · exact (hWF e he).2
  · exact Or.inl

theorem builtDeg_getD (nodes : List WNode) (edges : List WEdge) :
    ∀ k ∈ nodeIds nodes,
      (mapGet (addEdges edges (initDegAdj nodes)).1 k).getD 0 =
        (edges.countP (fun e => decide (e.target = k)) : Int) := by
  intro k hk
  rw [addEdges_deg edges (initDegAdj nodes) k, initDegAdj_deg nodes k, if_pos hk]
  simp

theorem kahnInv_init (nodes : List WNode) (edges : List WEdge)
    (hWF : EdgesWellFormed nodes edges) :
    KahnInv nodes edges
      ⟨initialQueue (addEdges edges (initDegAdj nodes)).1,
       (addEdges edges (initDegAdj nodes)).1, []⟩ := by
  have hkeysnd : (keysOf (addEdges edges (initDegAdj nodes)).1).Nodup :=
    addEdges_keys_nodup edges (initDegAdj nodes) (initDegAdj_keys_nodup nodes)
  have hkeysmem := builtDeg_keys_mem nodes edges hWF
  have hgetq : ∀ k, k ∈ initialQueue (addEdges edges (initDegAdj nodes)).1 ↔
      mapGet (addEdges edges (initDegAdj nodes)).1 k = some 0 :=
    fun k => mem_initialQueue_iff _ hkeysnd k
  constructor
  case sub_result => intro k hk; cases hk
  case sub_queue =>
      intro k hk
      have := (hgetq k).mp hk
      exact (hkeysmem k).mp (mem_keysOf_of_mapGet this)
  case nodup =>
      show ([] ++ initialQueue (addEdges edges (initDegAdj nodes)).1).Nodup
      rw [List.nil_append]
      exact initialQueue_nodup _ hkeysnd
  case keys_nodup => exact hkeysnd
  case keys_mem => exact hkeysmem
  case deg_spec =>
      intro k hk
      rw [builtDeg_getD nodes edges k hk, remInDeg_nil_res]
  case queue_iff =>
      intro k hk
      rw [hgetq k]
      have hmem : k ∈ keysOf (addEdges edges (initDegAdj nodes)).1 := (hkeysmem k).mpr hk
      obtain ⟨w, hw⟩ := mapGet_isSome_of_mem _ k hmem
      rw [hw]
      have hwval : w = (edges.countP (fun e => decide (e.target = k)) : Int) := by
        have := builtDeg_getD nodes edges k hk
        rw [hw] at this
        simpa using this
      rw [remInDeg_nil_res]
      constructor
      · intro hc
        have : w = 0 := Option.some.inj hc
        rw [this] at hwval
        exact ⟨by exact_mod_cast hwval.symm, by simp⟩
      · rintro ⟨hz, -⟩
        rw [hwval, hz]
        simp
  case sorted => intro e he htgt; cases htgt

theorem initDegAdj_length (nodes : List WNode) :
    (initDegAdj nodes).1.length ≤ nodes.length := by
  have main : ∀ (ns : List WNode) (st : List (String × Int) × List (String × List String)),
      (ns.foldl (fun st n => (mapSet st.1 n.id 0, mapSet st.2 n.id [])) st).1.length ≤
        st.1.length + ns.length := by
    intro ns
    induction ns with
    | nil => intro st; simp
    | cons n rest ih =>
        intro st
        rw [List.foldl_cons]
        have h1 := ih (mapSet st.1 n.id 0, mapSet st.2 n.id [])
        have h2 := length_mapSet_le st.1 n.id 0
        simp at h1 ⊢
        omega
  simpa using main nodes ([], [])

theorem addEdges_length (edges : List WEdge) :
    ∀ st : List (String × Int) × List (String × List String),
      (addEdges edges st).1.length ≤ st.1.length + edges.length := by
  induction edges with
  | nil => intro st; simp [addEdges]
  | cons e es ih =>
      intro st
      rw [addEdges, List.foldl_cons]
      rw [show (es.foldl _ _) = addEdges es
        ((mapSet st.1 e.target ((mapGet st.1 e.target).getD 0 + 1),
          match mapGet st.2 e.source with
          | some lst => mapSet st.2 e.source (lst ++ [e.target])
          | none => st.2)) from rfl]
      have h1 := ih (mapSet st.1 e.target ((mapGet st.1 e.target).getD 0 + 1),
        match mapGet st.2 e.source with
        | some lst => mapSet st.2 e.source (lst ++ [e.target])
        | none => st.2)
      have h2 := length_mapSet_le st.1 e.target ((mapGet st.1 e.target).getD 0 + 1)
      simp at h1 ⊢
      omega

theorem initDegAdj_valSum (nodes : List WNode) : valSum (initDegAdj nodes).1 = 0 := by
  have main : ∀ (ns : List WNode) (st : List (String × Int) × List (String × List String)),
      valSum st.1 = 0 →
      valSum (ns.foldl (fun st n => (mapSet st.1 n.id 0, mapSet st.2 n.id [])) st).1 = 0 := by
    intro ns
    induction ns with
    | nil => intro st h; exact h
    | cons n rest ih =>
        intro st h
        rw [List.foldl_cons]
        apply ih
        have := valSum_mapSet st.1 n.id 0
        simp at this ⊢
        omega
  exact main nodes ([], []) rfl

theorem addEdges_valSum (edges : List WEdge) :
    ∀ st : List (String × Int) × List (String × List String),
      valSum (addEdges edges st).1 ≤ valSum st.1 + edges.length := by
  induction edges with
  | nil => intro st; simp [addEdges]
  | cons e es ih =>
      intro st
      rw [addEdges, List.foldl_cons]
      rw [show (es.foldl _ _) = addEdges es
        ((mapSet st.1 e.target ((mapGet st.1 e.target).getD 0 + 1),
          match mapGet st.2 e.source with
          | some lst => mapSet st.2 e.source (lst ++ [e.target])
          | none => st.2)) from rfl]
      have h1 := ih (mapSet st.1 e.target ((mapGet st.1 e.target).getD 0 + 1),
        match mapGet st.2 e.source with
        | some lst => mapSet st.2 e.source (lst ++ [e.target])
        | none => st.2)
      have h2 := valSum_mapSet st.1 e.target ((mapGet st.1 e.target).getD 0 + 1)
      have h3 : (((mapGet st.1 e.target).getD 0) + 1).toNat ≤
          ((mapGet st.1 e.target).getD 0).toNat + 1 := by omega
      simp only [List.length_cons] at h1 ⊢
      omega

theorem kahn_final_queue_nil (nodes : List WNode) (edges : List WEdge) :
    (kahnLoop (addEdges edges (initDegAdj nodes)).2 (kahnFuel nodes edges)
      ⟨initialQueue (addEdges edges (initDegAdj nodes)).1,
       (addEdges edges (initDegAdj nodes)).1, []⟩).queue = [] := by
  apply kahnLoop_drains
  have h1 : (initialQueue (addEdges edges (initDegAdj nodes)).1).length ≤
      (addEdges edges (initDegAdj nodes)).1.length := by
    unfold initialQueue
    rw [List.length_map]
    exact List.length_filter_le _ _
  have h2 := addEdges_length edges (initDegAdj nodes)
  have h3 := initDegAdj_length nodes
  have h4 := addEdges_valSum edges (initDegAdj nodes)
  have h5 := initDegAdj_valSum nodes
  unfold phiQD kahnFuel
  simp only []
  omega

/-! ### Cycles from everywhere-positive remaining in-degree -/

theorem transGen_indexOf_lt (R : String → String → Prop) (order : List String)
    (hR : ∀ u v, R u v → u ∈ order ∧ v ∈ order ∧ order.indexOf u < order.indexOf v) :
    ∀ u v, Relation.TransGen R u v → order.indexOf u < order.indexOf v := by
  intro u v h
  induction h with
  | single h => exact (hR _ _ h).2.2
  | tail _ h ih => exact lt_trans ih (hR _ _ h).2.2

theorem exists_cycle_of_pred (S : Finset String)
    (R : String → String → Prop) (hne : S.Nonempty)
    (hpred : ∀ v ∈ S, ∃ u ∈ S, R u v) :
    ∃ v, Relation.TransGen R v v := by
  classical
  let f : String → String := fun v => if h : v ∈ S then (hpred v h).choose else v
  have hf : ∀ v ∈ S, f v ∈ S ∧ R (f v) v := by
    intro v hv
    have h1 := (hpred v hv).choose_spec.1
    have h2 := (hpred v hv).choose_spec.2
    simp only [f, dif_pos hv]
    exact ⟨h1, h2⟩
  obtain ⟨x, hx⟩ := hne
  have hiter : ∀ k, f^[k] x ∈ S := by
    intro k
    induction k with
    | zero => simpa using hx
    | succ k ih =>
        rw [Function.iterate_succ_apply']
        exact (hf _ ih).1
  have hstep : ∀ k, R (f^[k + 1] x) (f^[k] x) := by
    intro k
    rw [Function.iterate_succ_apply']
    exact (hf _ (hiter k)).2
  have hchain : ∀ (d k : Nat), Relation.TransGen R (f^[k + d + 1] x) (f^[k] x) := by
    intro d
    induction d with
    | zero => intro k; exact Relation.TransGen.single (hstep k)
    | succ d ih =>
        intro k
        have hnext : R (f^[k + d + 1 + 1] x) (f^[k + d + 1] x) := hstep (k + d + 1)
        have : k + (d + 1) + 1 = k + d + 1 + 1 := by omega
        rw [this]
        exact Relation.TransGen.head hnext (ih k)
  have key : ∀ a b : Nat, a < b → f^[a] x = f^[b] x →
      ∃ v, Relation.TransGen R v v := by
    intro a b hab heq
    refine ⟨f^[b] x, ?_⟩
    have hch : Relation.TransGen R (f^[a + (b - a - 1) + 1] x) (f^[a] x) := hchain (b - a - 1) a
    have harith : a + (b - a - 1) + 1 = b := by omega
    rw [harith, heq] at hch
    exact hch
  have hcard : S.card < (Finset.range (S.card + 1)).card := by simp
  obtain ⟨i, hi, j, hj, hij, heq⟩ :=
    Finset.exists_ne_map_eq_of_card_lt_of_maps_to hcard (fun k _ => hiter k)
  rcases Nat.lt_or_ge i j with hlt | hge
  · exact key i j hlt heq
  · have hlt : j < i := by omega
    exact key j i hlt heq.symm

/-! ### The main facts about buildExecutionOrder -/

theorem buildExecutionOrder_unfolded (nodes : List WNode) (edges : List WEdge) :
    buildExecutionOrder nodes edges =
      (if (kahnLoop (addEdges edges (initDegAdj nodes)).2 (kahnFuel nodes edges)
            ⟨initialQueue (addEdges edges (initDegAdj nodes)).1,
             (addEdges edges (initDegAdj nodes)).1, []⟩).result.length = nodes.length
       then Except.ok (kahnLoop (addEdges edges (initDegAdj nodes)).2 (kahnFuel nodes edges)
            ⟨initialQueue (addEdges edges (initDegAdj nodes)).1,
             (addEdges edges (initDegAdj nodes)).1, []⟩).result
       else Except.error cycleMessage) := rfl

theorem buildExecutionOrder_ok_props (nodes : List WNode) (edges : List WEdge)
    (hWF : EdgesWellFormed nodes edges) (order : List String)
    (hok : buildExecutionOrder nodes edges = Except.ok order) :
    order.Perm (nodeIds nodes) ∧ order.Nodup ∧
      (∀ e ∈ edges, order.indexOf e.source < order.indexOf e.target) := by
  have hInv : KahnInv nodes edges
      (kahnLoop (addEdges edges (initDegAdj nodes)).2 (kahnFuel nodes edges)
        ⟨initialQueue (addEdges edges (initDegAdj nodes)).1,
         (addEdges edges (initDegAdj nodes)).1, []⟩) :=
    kahnLoop_inv nodes edges hWF _ (builtAdj_spec nodes edges) _ _
      (kahnInv_init nodes edges hWF)
  have hqnil := kahn_final_queue_nil nodes edges
  rw [buildExecutionOrder_unfolded] at hok
  by_cases hlen : (kahnLoop (addEdges edges (initDegAdj nodes)).2 (kahnFuel nodes edges)
      ⟨initialQueue (addEdges edges (initDegAdj nodes)).1,
       (addEdges edges (initDegAdj nodes)).1, []⟩).result.length = nodes.length
  · rw [if_pos hlen] at hok
    have horder := Except.ok.inj hok
    have hnodup : order.Nodup := by
      have := hInv.nodup
      rw [hqnil, List.append_nil] at this
      rw [← horder]
      exact this
    have hsub : ∀ k ∈ order, k ∈ nodeIds nodes := by
      rw [← horder]
      exact hInv.sub_result
    have hperm : order.Perm (nodeIds nodes) := by
      apply List.Subperm.perm_of_length_le
      · exact List.subperm_of_subset hnodup hsub
      · rw [← horder, hlen, nodeIds, List.length_map]
    refine ⟨hperm, hnodup, ?_⟩
    intro e he
    have htgt : e.target ∈ order := hperm.mem_iff.mpr (hWF e he).2
    have := hInv.sorted e he (by rw [horder]; exact htgt)
    rw [← horder]
    exact this.2
  · rw [if_neg hlen] at hok
    cases hok

theorem acyclic_of_buildOrder_ok (nodes : List WNode) (edges : List WEdge)
    (hWF : EdgesWellFormed nodes edges) (order : List String)
    (hok : buildExecutionOrder nodes edges = Except.ok order) :
    AcyclicRestricted nodes edges := by
  obtain ⟨hperm, hnodup, hsorted⟩ := buildExecutionOrder_ok_props nodes edges hWF order hok
  intro w hw
  have hlt := transGen_indexOf_lt (stepEdgeRel nodes edges) order ?_ w w hw
  · exact lt_irrefl _ hlt
  · rintro u v ⟨humem, hvmem, e, he, hs, ht⟩
    have hu : u ∈ order := hperm.mem_iff.mpr humem
    have hv : v ∈ order := hperm.mem_iff.mpr hvmem
    have := hsorted e he
    rw [hs, ht] at this
    exact ⟨hu, hv, this⟩

theorem buildOrder_ok_of_acyclic (nodes : List WNode) (edges : List WEdge)
    (hWF : EdgesWellFormed nodes edges) (hNd : (nodeIds nodes).Nodup)
    (hacyc : AcyclicRestricted nodes edges) :
    buildExecutionOrder nodes edges = Except.ok
      (kahnLoop (addEdges edges (initDegAdj nodes)).2 (kahnFuel nodes edges)
        ⟨initialQueue (addEdges edges (initDegAdj nodes)).1,
         (addEdges edges (initDegAdj nodes)).1, []⟩).result := by
  have hInv : KahnInv nodes edges
      (kahnLoop (addEdges edges (initDegAdj nodes)).2 (kahnFuel nodes edges)
        ⟨initialQueue (addEdges edges (initDegAdj nodes)).1,
         (addEdges edges (initDegAdj nodes)).1, []⟩) :=
    kahnLoop_inv nodes edges hWF _ (builtAdj_spec nodes edges) _ _
      (kahnInv_init nodes edges hWF)
  have hqnil := kahn_final_queue_nil nodes edges
  set F := kahnLoop (addEdges edges (initDegAdj nodes)).2 (kahnFuel nodes edges)
      ⟨initialQueue (addEdges edges (initDegAdj nodes)).1,
       (addEdges edges (initDegAdj nodes)).1, []⟩ with hF
  have hcomplete : ∀ k ∈ nodeIds nodes, k ∈ F.result := by
    by_contra hc
    push_neg at hc
    obtain ⟨w, hwids, hwnot⟩ := hc
    have hS : ∀ v, v ∈ ((nodeIds nodes).filter
        (fun k => decide (k ∉ F.result))).toFinset ↔
        v ∈ nodeIds nodes ∧ v ∉ F.result := by
      intro v
      rw [List.mem_toFinset, List.mem_filter]
      simp
    have hcycle : ∃ v, Relation.TransGen (stepEdgeRel nodes edges) v v := by
      apply exists_cycle_of_pred ((nodeIds nodes).filter
        (fun k => decide (k ∉ F.result))).toFinset (stepEdgeRel nodes edges)
      · exact ⟨w, (hS w).mpr ⟨hwids, hwnot⟩⟩
      · intro v hv
        obtain ⟨hvids, hvnot⟩ := (hS v).mp hv
        have hnotq : v ∉ F.queue := by rw [hqnil]; exact List.not_mem_nil v
        have hne : ¬ (remInDeg edges F.result v = 0 ∧ v ∉ F.result) := by
          intro hcc
          exact hnotq ((hInv.queue_iff v hvids).mpr hcc)
        have hpos : 0 < remInDeg edges F.result v := by
          rcases Nat.eq_zero_or_pos (remInDeg edges F.result v) with hz | hp
          · exact absurd ⟨hz, hvnot⟩ hne
          · exact hp
        unfold remInDeg at hpos
        obtain ⟨e, he, hdec⟩ := List.countP_pos_iff.mp hpos
        have hprop : e.target = v ∧ e.source ∉ F.result := of_decide_eq_true hdec
        have hsrcids : e.source ∈ nodeIds nodes := (hWF e he).1
        refine ⟨e.source, (hS e.source).mpr ⟨hsrcids, hprop.2⟩, ?_⟩
        exact ⟨hsrcids, hvids, e, he, rfl, hprop.1⟩
    obtain ⟨v, hv⟩ := hcycle
    exact hacyc v hv
  have hnodup : F.result.Nodup := by
    have := hInv.nodup
    rw [hqnil, List.append_nil] at this
    exact this
  have hperm : F.result.Perm (nodeIds nodes) := by
    apply List.Subperm.perm_of_length_le
    · exact List.subperm_of_subset hnodup hInv.sub_result
    · exact List.Subperm.length_le (List.subperm_of_subset hNd hcomplete)
  have hlen : F.result.length = nodes.length := by
    rw [hperm.length_eq, nodeIds, List.length_map]
  rw [buildExecutionOrder_unfolded, ← hF, if_pos hlen]

/-! ### executeNode and runLoop -/

theorem executeNode_of_ok {V : Type} (handler : WNode → HOutcome V) (node : WNode) (d : V)
    (h : handler node = HOutcome.ok d) :
    executeNode handler node =
      (⟨true, "", some d⟩,
        [Event.status node.id Status.running, Event.status node.id Status.success,
         Event.updateOutput node.id d]) := by
  simp [executeNode, h]

theorem executeNode_success_iff {V : Type} (handler : WNode → HOutcome V) (node : WNode) :
    (executeNode handler node).1.success = (handler node).isOk := by
  cases h : handler node <;> simp [executeNode, h, HOutcome.isOk]

theorem executeNode_message_of_not_ok {V : Type} (handler : WNode → HOutcome V) (node : WNode)
    (h : (handler node).isOk = false) :
    (executeNode handler node).1.message = failureMessage (handler node) := by
  cases ho : handler node <;>
    simp [executeNode, ho, failureMessage, HOutcome.isOk] at h ⊢

theorem executeNode_eventIds {V : Type} (handler : WNode → HOutcome V) (node : WNode) :
    ∀ ev ∈ (executeNode handler node).2, eventId ev = node.id := by
  intro ev hev
  cases ho : handler node <;> simp [executeNode, ho] at hev <;>
    rcases hev with rfl | rfl | rfl <;> rfl

theorem executeNode_error_event_of_not_ok {V : Type} (handler : WNode → HOutcome V)
    (node : WNode) (h : (handler node).isOk = false) :
    Event.status node.id Status.error ∈ (executeNode handler node).2 := by
  cases ho : handler node <;> simp [executeNode, ho, HOutcome.isOk] at h ⊢

theorem executeNode_success_event_of_ok {V : Type} (handler : WNode → HOutcome V)
    (node : WNode) (h : (handler node).isOk = true) :
    Event.status node.id Status.success ∈ (executeNode handler node).2 := by
  cases ho : handler node <;> simp [executeNode, ho, HOutcome.isOk] at h ⊢

theorem executeNode_no_success_event_of_not_ok {V : Type} (handler : WNode → HOutcome V)
    (node : WNode) (h : (handler node).isOk = false) :
    ∀ id, Event.status id Status.success ∉ (executeNode handler node).2 := by
  intro id
  cases ho : handler node <;> simp [executeNode, ho, HOutcome.isOk] at h ⊢

theorem runLoop_prefixRun {V : Type} (nodes : List WNode) (handler : WNode → HOutcome V)
    (stopFlag : Nat → Bool) (o1 : List String) :
    ∀ (rest : List String) (i : Nat) (ed : List (String × Option V)) (evs : List (Event V)),
    (∀ j, j < o1.length → stopFlag (i + j) = false) →
    (∀ id ∈ o1, ∀ n, nodes.find? (fun x => x.id = id) = some n → (handler n).isOk = true) →
    runLoop nodes handler stopFlag (o1 ++ rest) i ed evs =
      runLoop nodes handler stopFlag rest (i + o1.length)
        (prefixData nodes handler o1 ed) (evs ++ prefixEvents nodes handler o1) := by
  induction o1 with
  | nil =>
      intro rest i ed evs _ _
      simp [prefixData, prefixEvents]
  | cons nodeId o1' ih =>
      intro rest i ed evs hstop hsucc
      have hs0 : stopFlag i = false := by
        have := hstop 0 (by simp)
        simpa using this
      rw [List.cons_append, runLoop, hs0]
      simp only [Bool.false_eq_true, if_false]
      cases hf : nodes.find? (fun n => n.id = nodeId) with
      | none =>
          rw [prefixData, prefixEvents, hf]
          have harith : i + 1 + o1'.length = i + (nodeId :: o1').length := by
            simp; omega
          rw [ih rest (i + 1) ed evs
            (fun j hj => by
              have := hstop (j + 1) (by simpa using Nat.succ_lt_succ hj)
              simpa [Nat.add_assoc, Nat.add_comm 1 j] using this)
            (fun id hid n hn => hsucc id (List.mem_cons_of_mem _ hid) n hn), harith]
      | some node =>
          have hok : (handler node).isOk = true :=
            hsucc nodeId (List.mem_cons_self _ _) node hf
          have hsuc : (executeNode handler node).1.success = true := by
            rw [executeNode_success_iff, hok]
          rw [prefixData, prefixEvents, hf]
          simp only [hsuc, if_true]
          have harith : i + 1 + o1'.length = i + (nodeId :: o1').length := by
            simp; omega
          rw [ih rest (i + 1) (mapSet ed nodeId (executeNode handler node).1.data)
            (evs ++ (executeNode handler node).2)
            (fun j hj => by
              have := hstop (j + 1) (by simpa using Nat.succ_lt_succ hj)
              simpa [Nat.add_assoc, Nat.add_comm 1 j] using this)
            (fun id hid n hn => hsucc id (List.mem_cons_of_mem _ hid) n hn), harith,
            List.append_assoc]

/-! ### Helper lemmas for the claims about execute -/

theorem transGen_irrefl_of_empty {α : Type} (R : α → α → Prop)
    (h : ∀ a b, ¬ R a b) : ∀ v, ¬ Relation.TransGen R v v := by
  intro v hv
  cases hv with
  | single hr => exact h _ _ hr
  | tail _ hr => exact h _ _ hr

theorem find?_node_id {nodes : List WNode} {id : String} {n : WNode}
    (h : nodes.find? (fun x => x.id = id) = some n) : n.id = id := by
  have := List.find?_some h
  exact of_decide_eq_true this

theorem find?_of_mem_nodeIds (nodes : List WNode) (id : String)
    (h : id ∈ nodeIds nodes) :
    ∃ n, nodes.find? (fun x => x.id = id) = some n ∧ n.id = id := by
  induction nodes with
  | nil => cases h
  | cons n ns ih =>
      by_cases hn : n.id = id
      · refine ⟨n, ?_, hn⟩
        rw [List.find?_cons_of_pos]
        simp [hn]
      · have hmem : id ∈ nodeIds ns := by
          rw [show nodeIds (n :: ns) = n.id :: nodeIds ns from rfl] at h
          rcases List.mem_cons.mp h with hc | hc
          · exact absurd hc.symm hn
          · exact hc
        obtain ⟨m, hm, hmid⟩ := ih hmem
        refine ⟨m, ?_, hmid⟩
        rw [List.find?_cons_of_neg]
        · exact hm
        · simp [hn]

theorem mem_of_mapGet_eq_some {α : Type} {m : List (String × α)} {k : String} {v : α}
    (h : mapGet m k = some v) : (k, v) ∈ m := by
  induction m with
  | nil => cases h
  | cons p rest ih =>
      obtain ⟨pk, pv⟩ := p
      rw [mapGet_cons] at h
      by_cases hk : pk = k
      · rw [if_pos hk] at h
        have := Option.some.inj h
        subst hk
        rw [← this]
        exact List.mem_cons_self _ _
      · rw [if_neg hk] at h
        exact List.mem_cons_of_mem _ (ih h)

theorem execute_eq_runLoop {V : Type} (nodes : List WNode) (edges : List WEdge)
    (handler : WNode → HOutcome V) (stopFlag : Nat → Bool) (order : List String)
    (hbuild : buildExecutionOrder nodes edges = Except.ok order) (hne : order ≠ []) :
    execute nodes edges handler stopFlag =
      runLoop nodes handler stopFlag order 0 [] [] := by
  unfold execute
  rw [hbuild]
  show (if order.length = 0 then _ else runLoop nodes handler stopFlag order 0 [] []) =
    runLoop nodes handler stopFlag order 0 [] []
  rw [if_neg]
  simp [List.length_eq_zero, hne]

theorem prefixEvents_ids {V : Type} (nodes : List WNode) (handler : WNode → HOutcome V) :
    ∀ (o1 : List String), ∀ ev ∈ prefixEvents nodes handler o1, eventId ev ∈ o1 := by
  intro o1
  induction o1 with
  | nil => intro ev hev; cases hev
  | cons nodeId rest ih =>
      intro ev hev
      rw [prefixEvents] at hev
      cases hf : nodes.find? (fun n => n.id = nodeId) with
      | none =>
          rw [hf] at hev
          exact List.mem_cons_of_mem _ (ih ev hev)
      | some node =>
          rw [hf] at hev
          rcases List.mem_append.mp hev with hev | hev
          · have := executeNode_eventIds handler node ev hev
            rw [this, find?_node_id hf]
            exact List.mem_cons_self _ _
          · exact List.mem_cons_of_mem _ (ih ev hev)

theorem prefixEvents_success_mem {V : Type} (nodes : List WNode)
    (handler : WNode → HOutcome V) :
    ∀ (o1 : List String) (id : String), id ∈ o1 →
      (∀ i ∈ o1, ∀ n, nodes.find? (fun x => x.id = i) = some n → (handler n).isOk = true) →
      (∀ i ∈ o1, i ∈ nodeIds nodes) →
      Event.status id Status.success ∈ prefixEvents nodes handler o1 := by
  intro o1
  induction o1 with
  | nil => intro id hid; cases hid
  | cons nodeId rest ih =>
      intro id hid hsucc hids
      obtain ⟨n, hfindn, hnid⟩ := find?_of_mem_nodeIds nodes nodeId
        (hids nodeId (List.mem_cons_self _ _))
      rw [prefixEvents, hfindn]
      rcases List.mem_cons.mp hid with rfl | hid
      · apply List.mem_append.mpr
        left
        have hok := hsucc id (List.mem_cons_self _ _) n hfindn
        have := executeNode_success_event_of_ok handler n hok
        rw [hnid] at this
        exact this
      · apply List.mem_append.mpr
        right
        exact ih id hid
          (fun i hi m hm => hsucc i (List.mem_cons_of_mem _ hi) m hm)
          (fun i hi => hids i (List.mem_cons_of_mem _ hi))

theorem execute_first_failure {V : Type} (nodes : List WNode) (edges : List WEdge)
    (handler : WNode → HOutcome V) (stopFlag : Nat → Bool)
    (o1 o2 : List String) (failId : String) (fnode : WNode)
    (hbuild : buildExecutionOrder nodes edges = Except.ok (o1 ++ failId :: o2))
    (hWF : EdgesWellFormed nodes edges)
    (hstop : ∀ j, j ≤ o1.length → stopFlag j = false)
    (hsucc : ∀ id ∈ o1, ∀ n, nodes.find? (fun x => x.id = id) = some n →
      (handler n).isOk = true)
    (hfind : nodes.find? (fun n => n.id = failId) = some fnode)
    (hfail : (handler fnode).isOk = false) :
    (execute nodes edges handler stopFlag).1 =
      ⟨false, failedAtMessage fnode.label (failureMessage (handler fnode)), none⟩ ∧
    (∀ id ∈ o2, ∀ st, Event.status id st ∉ (execute nodes edges handler stopFlag).2.2) ∧
    Event.status failId Status.error ∈ (execute nodes edges handler stopFlag).2.2 := by
  have hne : o1 ++ failId :: o2 ≠ [] := by
    intro hc
    have := congrArg List.length hc
    simp at this
  rw [execute_eq_runLoop nodes edges handler stopFlag _ hbuild hne]
  rw [runLoop_prefixRun nodes handler stopFlag o1 (failId :: o2) 0 [] []
    (fun j hj => by simpa using hstop j (le_of_lt hj))
    hsucc]
  rw [runLoop]
  have hs : stopFlag (0 + o1.length) = false := by
    simpa using hstop o1.length (le_refl _)
  rw [hs]
  simp only [Bool.false_eq_true, if_false]
  rw [hfind]
  dsimp only
  have hnsucc : (executeNode handler fnode).1.success = false := by
    rw [executeNode_success_iff, hfail]
  rw [if_neg (by rw [hnsucc]; exact Bool.false_ne_true)]
  dsimp only
  have hmsg := executeNode_message_of_not_ok handler fnode hfail
  have hnodup : (o1 ++ failId :: o2).Nodup :=
    (buildExecutionOrder_ok_props nodes edges hWF _ hbuild).2.1
  have hfid : fnode.id = failId := find?_node_id hfind
  refine ⟨?_, ?_, ?_⟩
  · rw [hmsg]
  · intro id hid st hmem
    rw [List.nil_append] at hmem
    rcases List.mem_append.mp hmem with hmem | hmem
    · have : id ∈ o1 := by
        have := prefixEvents_ids nodes handler o1 _ hmem
        simpa [eventId] using this
      have hdisj := List.disjoint_of_nodup_append hnodup
      exact hdisj this (List.mem_cons_of_mem _ hid)
    · have : id = fnode.id := by
        have := executeNode_eventIds handler fnode _ hmem
        simpa [eventId] using this
      rw [hfid] at this
      subst this
      have := List.nodup_append.mp hnodup
      have hnd2 := this.2.1
      rw [List.nodup_cons] at hnd2
      exact hnd2.1 hid
  · rw [List.nil_append]
    apply List.mem_append.mpr
    right
    have := executeNode_error_event_of_not_ok handler fnode hfail
    rw [hfid] at this
    exact this

theorem runLoop_edInv {V : Type} (nodes : List WNode) (handler : WNode → HOutcome V)
    (stopFlag : Nat → Bool) :
    ∀ (order : List String) (i : Nat) (ed : List (String × Option V))
      (evs : List (Event V)),
      order.Nodup →
      (∀ id ∈ keysOf ed, id ∉ order) →
      (∀ ev ∈ evs, eventId ev ∉ order) →
      EdInv nodes handler ed evs →
      EdInv nodes handler (runLoop nodes handler stopFlag order i ed evs).2.1
        (runLoop nodes handler stopFlag order i ed evs).2.2 := by
  intro order
  induction order with
  | nil => intro i ed evs _ _ _ hInv; exact hInv
  | cons nodeId rest ih =>
      intro i ed evs hnd hfresh hevs hInv
      rw [runLoop]
      by_cases hs : stopFlag i
      · rw [if_pos hs]
        exact hInv
      · rw [if_neg hs]
        cases hf : nodes.find? (fun n => n.id = nodeId) with
        | none =>
            exact ih (i + 1) ed evs hnd.of_cons
              (fun id hid => fun hc => hfresh id hid (List.mem_cons_of_mem _ hc))
              (fun ev hev => fun hc => hevs ev hev (List.mem_cons_of_mem _ hc))
              hInv
        | some node =>
            have hnodeid : node.id = nodeId := find?_node_id hf
            have hfreshId : nodeId ∉ keysOf ed := by
              intro hc
              exact hfresh nodeId hc (List.mem_cons_self _ _)
            dsimp only
            cases hout : handler node with
            | ok d =>
                have hsucc : (executeNode handler node).1.success = true := by
                  rw [executeNode_success_iff, hout]
                  rfl
                rw [if_pos hsucc]
                have hexec := executeNode_of_ok handler node d hout
                apply ih (i + 1)
                · exact hnd.of_cons
                · intro id hid
                  rw [show (executeNode handler node).1.data = some d from by
                      rw [hexec]] at hid
                  rw [mapSet_eq_append_of_not_mem ed nodeId (some d) hfreshId,
                    keysOf_append] at hid
                  rcases List.mem_append.mp hid with hid | hid
                  · exact fun hc => hfresh id hid (List.mem_cons_of_mem _ hc)
                  · have : id = nodeId := by
                      simpa [keysOf] using hid
                    subst this
                    exact (List.nodup_cons.mp hnd).1
                · intro ev hev
                  rcases List.mem_append.mp hev with hev | hev
                  · exact fun hc => hevs ev hev (List.mem_cons_of_mem _ hc)
                  · have : eventId ev = nodeId := by
                      rw [← hnodeid]
                      exact executeNode_eventIds handler node ev hev
                    rw [this]
                    exact (List.nodup_cons.mp hnd).1
                · rw [show (executeNode handler node).1.data = some d from by rw [hexec],
                    mapSet_eq_append_of_not_mem ed nodeId (some d) hfreshId]
                  have hnevs : (executeNode handler node).2 =
                      [Event.status node.id Status.running,
                       Event.status node.id Status.success,
                       Event.updateOutput node.id d] := by
                    rw [hexec]
                  refine ⟨?_, ?_, ?_, ?_⟩
                  · rw [keysOf_append, List.nodup_append]
                    refine ⟨hInv.nodupKeys, by simp [keysOf], ?_⟩
                    intro a ha hb
                    have : a = nodeId := by simpa [keysOf] using hb
                    subst this
                    exact hfreshId ha
                  · intro id
                    rw [keysOf_append, List.mem_append, hnevs]
                    by_cases hid : id = nodeId
                    · subst hid
                      constructor
                      · intro _
                        apply List.mem_append.mpr
                        right
                        rw [hnodeid]
                        simp
                      · intro _
                        right
                        simp [keysOf]
                    · constructor
                      · intro hmem
                        rcases hmem with hmem | hmem
                        · exact List.mem_append.mpr
                            (Or.inl ((hInv.succ_iff id).mp hmem))
                        · exact absurd (by simpa [keysOf] using hmem) hid
                      · intro hmem
                        rcases List.mem_append.mp hmem with hmem | hmem
                        · exact Or.inl ((hInv.succ_iff id).mpr hmem)
                        · rw [hnodeid] at hmem
                          simp at hmem
                          exact absurd hmem hid
                  · intro id dv hmem
                    rcases List.mem_append.mp hmem with hmem | hmem
                    · exact hInv.val_spec id dv hmem
                    · rw [List.mem_singleton] at hmem
                      have hid : id = nodeId := congrArg Prod.fst hmem
                      have hdv : dv = some d := congrArg Prod.snd hmem
                      subst hid
                      exact ⟨node, hf, d, hout, hdv⟩
                  · intro id hmem
                    rw [keysOf_append]
                    rw [hnevs] at hmem
                    rcases List.mem_append.mp hmem with hmem | hmem
                    · intro hc
                      rcases List.mem_append.mp hc with hc | hc
                      · exact hInv.err_not id hmem hc
                      · have : id = nodeId := by simpa [keysOf] using hc
                        subst this
                        exact hevs _ hmem (List.mem_cons_self _ _)
                    · rw [hnodeid] at hmem
                      simp at hmem
            | fail m =>
                have hnsucc : (executeNode handler node).1.success = false := by
                  rw [executeNode_success_iff, hout]
                  rfl
                rw [if_neg (by rw [hnsucc]; exact Bool.false_ne_true)]
                have hnevs : (executeNode handler node).2 =
                    [Event.status node.id Status.running,
                     Event.status node.id Status.error,
                     Event.updateError node.id m] := by
                  simp [executeNode, hout]
                refine ⟨?_, ?_, ?_, ?_⟩
                · exact hInv.nodupKeys
                · intro id
                  rw [List.mem_append, hnevs]
                  constructor
                  · intro hmem
                    exact Or.inl ((hInv.succ_iff id).mp hmem)
                  · rintro (hmem | hmem)
                    · exact (hInv.succ_iff id).mpr hmem
                    · simp at hmem
                · exact hInv.val_spec
                · intro id hmem
                  rcases List.mem_append.mp hmem with hmem | hmem
                  · exact hInv.err_not id hmem
                  · rw [hnevs] at hmem
                    simp at hmem
                    rw [hmem, hnodeid]
                    exact hfreshId
            | exn m =>
                have hnsucc : (executeNode handler node).1.success = false := by
                  rw [executeNode_success_iff, hout]
                  rfl
                rw [if_neg (by rw [hnsucc]; exact Bool.false_ne_true)]
                have hnevs : (executeNode handler node).2 =
                    [Event.status node.id Status.running,
                     Event.status node.id Status.error,
                     Event.updateError node.id (jsOrStr m "Node execution failed")] := by
                  simp [executeNode, hout]
                refine ⟨?_, ?_, ?_, ?_⟩
                · exact hInv.nodupKeys
                · intro id
                  rw [List.mem_append, hnevs]
                  constructor
                  · intro hmem
                    exact Or.inl ((hInv.succ_iff id).mp hmem)
                  · rintro (hmem | hmem)
                    · exact (hInv.succ_iff id).mpr hmem
                    · simp at hmem
                · exact hInv.val_spec
                · intro id hmem
                  rcases List.mem_append.mp hmem with hmem | hmem
                  · exact hInv.err_not id hmem
                  · rw [hnevs] at hmem
                    simp at hmem
                    rw [hmem, hnodeid]
                    exact hfreshId

/-! ## Claim theorems -/

/-- C1, counterexample: on the one-step graph A with the single connection
P -> A whose source P is not a step, the restricted connection relation is
empty (hence acyclic) and the graph has a step, yet buildExecutionOrder
throws the CycleError: the phantom source inflates the in-degree of A,
which is never decremented.  This refutes the claim as stated. -/
theorem claim1_counterexample :
    ([(⟨"A", "Node A", "projectCreate"⟩ : WNode)] : List WNode).length = 1 ∧
    AcyclicRestricted [⟨"A", "Node A", "projectCreate"⟩] [⟨"P", "A"⟩] ∧
    buildExecutionOrder [⟨"A", "Node A", "projectCreate"⟩] [⟨"P", "A"⟩] =
      Except.error cycleMessage := by
  refine ⟨rfl, ?_, by rfl⟩
  apply transGen_irrefl_of_empty
  rintro a b ⟨ha, hb, e, he, hs, ht⟩
  rw [List.mem_singleton] at he
  subst he
  rw [← hs] at ha
  revert ha
  decide

/-- C1 (amended): for every graph with at least one step, unique step ids,
all of whose connections reference step ids present in the graph, the
scheduler succeeds exactly when the connection relation is acyclic: a
CycleError occurs only when the relation actually contains a cycle, and on
an acyclic graph the scheduler produces a (nonempty) Linear Order.  The
amendment restricts the original claim to connections whose endpoints are
steps: as claim1_counterexample shows, a connection naming a source or
target id that is not a step in the graph can also trigger the
CycleError. -/
theorem claim1_amended (nodes : List WNode) (edges : List WEdge)
    (hWF : EdgesWellFormed nodes edges) (hNd : (nodeIds nodes).Nodup) :
    ((∃ order, buildExecutionOrder nodes edges = Except.ok order) ↔
      AcyclicRestricted nodes edges) ∧
    (AcyclicRestricted nodes edges → nodes ≠ [] →
      ∃ order, buildExecutionOrder nodes edges = Except.ok order ∧ order ≠ []) := by
  constructor
  · constructor
    · rintro ⟨order, hok⟩
      exact acyclic_of_buildOrder_ok nodes edges hWF order hok
    · intro hacyc
      exact ⟨_, buildOrder_ok_of_acyclic nodes edges hWF hNd hacyc⟩
  · intro hacyc hne
    refine ⟨_, buildOrder_ok_of_acyclic nodes edges hWF hNd hacyc, ?_⟩
    have hprops := buildExecutionOrder_ok_props nodes edges hWF _
      (buildOrder_ok_of_acyclic nodes edges hWF hNd hacyc)
    intro hnil
    have hlen2 : nodes.length = 0 := by
      have hlen := hprops.1.length_eq
      rw [hnil, nodeIds, List.length_map] at hlen
      simpa using hlen.symm
    exact hne (List.length_eq_zero.mp hlen2)

theorem claim1_amended_witness :
    EdgesWellFormed [⟨"A", "Node A", "projectCreate"⟩] [] ∧
    (nodeIds [⟨"A", "Node A", "projectCreate"⟩]).Nodup ∧
    (((∃ order, buildExecutionOrder [⟨"A", "Node A", "projectCreate"⟩] [] =
        Except.ok order) ↔
      AcyclicRestricted [⟨"A", "Node A", "projectCreate"⟩] []) ∧
    (AcyclicRestricted [⟨"A", "Node A", "projectCreate"⟩] [] →
      [(⟨"A", "Node A", "projectCreate"⟩ : WNode)] ≠ [] →
      ∃ order, buildExecutionOrder [⟨"A", "Node A", "projectCreate"⟩] [] =
        Except.ok order ∧ order ≠ [])) :=
  ⟨by unfold EdgesWellFormed; decide, by decide,
    claim1_amended [⟨"A", "Node A", "projectCreate"⟩] []
      (by unfold EdgesWellFormed; decide) (by decide)⟩

/-- C2, counterexample: the two-step graph A, B with the connections
A -> P and Q -> B (P and Q are not steps) has an empty restricted
connection relation (hence it is acyclic under any reading), yet
buildExecutionOrder returns the list A, P, which is not a permutation of
the step ids A, B: the phantom target P is enqueued and emitted while B,
whose in-degree was inflated by the phantom source Q, is dropped.  This
refutes the claim as stated. -/
theorem claim2_counterexample :
    AcyclicRestricted [⟨"A", "Node A", "projectCreate"⟩, ⟨"B", "Node B", "compile"⟩]
      [⟨"A", "P"⟩, ⟨"Q", "B"⟩] ∧
    buildExecutionOrder [⟨"A", "Node A", "projectCreate"⟩, ⟨"B", "Node B", "compile"⟩]
      [⟨"A", "P"⟩, ⟨"Q", "B"⟩] = Except.ok ["A", "P"] ∧
    ¬ (["A", "P"].Perm
      (nodeIds [⟨"A", "Node A", "projectCreate"⟩, ⟨"B", "Node B", "compile"⟩])) := by
  refine ⟨?_, by rfl, by decide⟩
  apply transGen_irrefl_of_empty
  rintro a b ⟨ha, hb, e, he, hs, ht⟩
  rcases List.mem_cons.mp he with rfl | he
  · rw [← ht] at hb
    revert hb
    decide
  · rw [List.mem_singleton] at he
    subst he
    rw [← hs] at ha
    revert ha
    decide

/-- C2 (amended): for every acyclic graph with unique step ids all of
whose connections have both endpoints among the step ids,
buildExecutionOrder returns a permutation of all step ids in which, for
every connection u -> v, u appears strictly before v.  The amendment adds
the requirement that connection endpoints are steps of the graph: as
claim2_counterexample shows, with a dangling connection the returned list
need not be a permutation of the step ids. -/
theorem claim2_amended (nodes : List WNode) (edges : List WEdge)
    (hWF : EdgesWellFormed nodes edges) (hNd : (nodeIds nodes).Nodup)
    (hacyc : AcyclicRestricted nodes edges) :
    ∃ order, buildExecutionOrder nodes edges = Except.ok order ∧
      order.Perm (nodeIds nodes) ∧
      ∀ e ∈ edges, order.indexOf e.source < order.indexOf e.target := by
  have hok := buildOrder_ok_of_acyclic nodes edges hWF hNd hacyc
  have hprops := buildExecutionOrder_ok_props nodes edges hWF _ hok
  exact ⟨_, hok, hprops.1, hprops.2.2⟩

theorem claim2_amended_witness :
    EdgesWellFormed [⟨"A", "Node A", "projectCreate"⟩, ⟨"B", "Node B", "compile"⟩]
      [⟨"A", "B"⟩] ∧
    (nodeIds [⟨"A", "Node A", "projectCreate"⟩, ⟨"B", "Node B", "compile"⟩]).Nodup ∧
    AcyclicRestricted [⟨"A", "Node A", "projectCreate"⟩, ⟨"B", "Node B", "compile"⟩]
      [⟨"A", "B"⟩] ∧
    (∃ order, buildExecutionOrder
        [⟨"A", "Node A", "projectCreate"⟩, ⟨"B", "Node B", "compile"⟩] [⟨"A", "B"⟩] =
        Except.ok order ∧
      order.Perm (nodeIds [⟨"A", "Node A", "projectCreate"⟩, ⟨"B", "Node B", "compile"⟩]) ∧
      ∀ e ∈ [(⟨"A", "B"⟩ : WEdge)],
        order.indexOf e.source < order.indexOf e.target) := by
  have hacyc : AcyclicRestricted
      [⟨"A", "Node A", "projectCreate"⟩, ⟨"B", "Node B", "compile"⟩] [⟨"A", "B"⟩] :=
    acyclic_of_buildOrder_ok _ _ (by unfold EdgesWellFormed; decide) ["A", "B"] (by rfl)
  exact ⟨by unfold EdgesWellFormed; decide, by decide, hacyc,
    claim2_amended _ _ (by unfold EdgesWellFormed; decide) (by decide) hacyc⟩

/-- C3, counterexample: the two-step graph A, B with the connections
A -> A (a cycle among steps) and B -> P (P not a step): the phantom P is
emitted into the order in place of the cycle node A, so the length check
passes, no CycleError is raised, the run succeeds, and B's handler runs
(B transitions to Running and then Success).  This refutes the claim as
stated. -/
theorem claim3_counterexample :
    Relation.TransGen
      (stepEdgeRel [⟨"A", "Node A", "projectCreate"⟩, ⟨"B", "Node B", "compile"⟩]
        [⟨"A", "A"⟩, ⟨"B", "P"⟩]) "A" "A" ∧
    (execute [⟨"A", "Node A", "projectCreate"⟩, ⟨"B", "Node B", "compile"⟩]
      [⟨"A", "A"⟩, ⟨"B", "P"⟩] (fun _ => HOutcome.ok (0 : Nat))
      (fun _ => false)).1.success = true ∧
    Event.status "B" Status.running ∈
      (execute [⟨"A", "Node A", "projectCreate"⟩, ⟨"B", "Node B", "compile"⟩]
        [⟨"A", "A"⟩, ⟨"B", "P"⟩] (fun _ => HOutcome.ok (0 : Nat))
        (fun _ => false)).2.2 := by
  refine ⟨?_, by decide, by decide⟩
  exact Relation.TransGen.single
    ⟨by decide, by decide, ⟨"A", "A"⟩, by decide, rfl, rfl⟩

/-- C3 (amended): for every graph all of whose connections have both
endpoints among the step ids, if the steps contain a cycle then execute
returns success false carrying the cycle error message, no handler is
invoked and no status callback is issued (the executionData and the event
trace are empty): the cycle check completes before any dispatch.  The
amendment adds well-formedness of the connections: as
claim3_counterexample shows, a dangling connection can mask the cycle and
let the run execute steps and succeed. -/
theorem claim3_amended {V : Type} (nodes : List WNode) (edges : List WEdge)
    (hWF : EdgesWellFormed nodes edges)
    (hcyc : ∃ v, Relation.TransGen (stepEdgeRel nodes edges) v v)
    (handler : WNode → HOutcome V) (stopFlag : Nat → Bool) :
    execute nodes edges handler stopFlag =
      (⟨false, cycleMessage, none⟩, [], []) := by
  cases hb : buildExecutionOrder nodes edges with
  | ok order =>
      obtain ⟨v, hv⟩ := hcyc
      exact absurd hv (acyclic_of_buildOrder_ok nodes edges hWF order hb v)
  | error msg =>
      have hmsg : msg = cycleMessage := by
        rw [buildExecutionOrder_unfolded] at hb
        by_cases hlen : (kahnLoop (addEdges edges (initDegAdj nodes)).2
            (kahnFuel nodes edges)
            ⟨initialQueue (addEdges edges (initDegAdj nodes)).1,
             (addEdges edges (initDegAdj nodes)).1, []⟩).result.length = nodes.length
        · rw [if_pos hlen] at hb
          cases hb
        · rw [if_neg hlen] at hb
          exact (Except.error.inj hb).symm
      unfold execute
      rw [hb, hmsg]
      dsimp only
      have hjs : jsOrStr cycleMessage "Unknown error during workflow execution" =
          cycleMessage := by decide
      rw [hjs]

theorem claim3_amended_witness :
    EdgesWellFormed [⟨"A", "Node A", "projectCreate"⟩, ⟨"B", "Node B", "compile"⟩]
      [⟨"A", "B"⟩, ⟨"B", "A"⟩] ∧
    (∃ v, Relation.TransGen
      (stepEdgeRel [⟨"A", "Node A", "projectCreate"⟩, ⟨"B", "Node B", "compile"⟩]
        [⟨"A", "B"⟩, ⟨"B", "A"⟩]) v v) ∧
    execute [⟨"A", "Node A", "projectCreate"⟩, ⟨"B", "Node B", "compile"⟩]
      [⟨"A", "B"⟩, ⟨"B", "A"⟩] (fun _ => HOutcome.ok (0 : Nat)) (fun _ => false) =
      (⟨false, cycleMessage, none⟩, [], []) := by
  have hcyc : ∃ v, Relation.TransGen
      (stepEdgeRel [⟨"A", "Node A", "projectCreate"⟩, ⟨"B", "Node B", "compile"⟩]
        [⟨"A", "B"⟩, ⟨"B", "A"⟩]) v v := by
    have h1 : stepEdgeRel
        [⟨"A", "Node A", "projectCreate"⟩, ⟨"B", "Node B", "compile"⟩]
        [⟨"A", "B"⟩, ⟨"B", "A"⟩] "A" "B" :=
      ⟨by decide, by decide, ⟨"A", "B"⟩, by decide, rfl, rfl⟩
    have h2 : stepEdgeRel
        [⟨"A", "Node A", "projectCreate"⟩, ⟨"B", "Node B", "compile"⟩]
        [⟨"A", "B"⟩, ⟨"B", "A"⟩] "B" "A" :=
      ⟨by decide, by decide, ⟨"B", "A"⟩, by decide, rfl, rfl⟩
    exact ⟨"A", Relation.TransGen.tail (Relation.TransGen.single h1) h2⟩
  exact ⟨by unfold EdgesWellFormed; decide, hcyc,
    claim3_amended _ _ (by unfold EdgesWellFormed; decide) hcyc
      (fun _ => HOutcome.ok (0 : Nat)) (fun _ => false)⟩

/-- C4: on every run in which the handlers of all earlier steps of the
Linear Order succeed, the stop flag is not raised, and the handler of some
step fails (returns a failure or throws), execute immediately returns
success false with a message naming the failing step by its display label
together with the handler's failure message, and no step strictly later
in the Linear Order ever transitions to Running (no status callback at
all is issued for it, so its handler is never invoked). -/
theorem claim4_first_failure {V : Type} (nodes : List WNode) (edges : List WEdge)
    (handler : WNode → HOutcome V) (stopFlag : Nat → Bool)
    (o1 o2 : List String) (failId : String) (fnode : WNode)
    (hbuild : buildExecutionOrder nodes edges = Except.ok (o1 ++ failId :: o2))
    (hWF : EdgesWellFormed nodes edges)
    (hstop : ∀ j, j ≤ o1.length → stopFlag j = false)
    (hsucc : ∀ id ∈ o1, ∀ n ∈ nodes, n.id = id → (handler n).isOk = true)
    (hfind : nodes.find? (fun n => n.id = failId) = some fnode)
    (hfail : (handler fnode).isOk = false) :
    (execute nodes edges handler stopFlag).1 =
      ⟨false, failedAtMessage fnode.label (failureMessage (handler fnode)), none⟩ ∧
    (∀ id ∈ o2, ∀ st, Event.status id st ∉
      (execute nodes edges handler stopFlag).2.2) := by
  have h := execute_first_failure nodes edges handler stopFlag o1 o2 failId fnode
    hbuild hWF hstop
    (fun id hid n hn =>
      hsucc id hid n (List.mem_of_find?_eq_some hn) (find?_node_id hn))
    hfind hfail
  exact ⟨h.1, h.2.1⟩

theorem claim4_first_failure_witness :
    buildExecutionOrder
      [⟨"A", "Node A", "projectCreate"⟩, ⟨"B", "Node B", "compile"⟩]
      [⟨"A", "B"⟩] = Except.ok (["A"] ++ "B" :: []) ∧
    EdgesWellFormed [⟨"A", "Node A", "projectCreate"⟩, ⟨"B", "Node B", "compile"⟩]
      [⟨"A", "B"⟩] ∧
    (∀ j, j ≤ (["A"] : List String).length → (fun _ => false : Nat → Bool) j = false) ∧
    (∀ id ∈ (["A"] : List String),
      ∀ n ∈ [(⟨"A", "Node A", "projectCreate"⟩ : WNode), ⟨"B", "Node B", "compile"⟩],
        n.id = id →
        ((fun n => if n.id = "A" then HOutcome.ok (1 : Nat) else HOutcome.fail "boom")
          n).isOk = true) ∧
    ([(⟨"A", "Node A", "projectCreate"⟩ : WNode),
      ⟨"B", "Node B", "compile"⟩].find? (fun n => n.id = "B") =
      some ⟨"B", "Node B", "compile"⟩) ∧
    (((fun n => if n.id = "A" then HOutcome.ok (1 : Nat) else HOutcome.fail "boom")
      (⟨"B", "Node B", "compile"⟩ : WNode)).isOk = false) ∧
    ((execute [⟨"A", "Node A", "projectCreate"⟩, ⟨"B", "Node B", "compile"⟩]
        [⟨"A", "B"⟩]
        (fun n => if n.id = "A" then HOutcome.ok (1 : Nat) else HOutcome.fail "boom")
        (fun _ => false)).1 =
      ⟨false, failedAtMessage "Node B"
        (failureMessage ((fun n => if n.id = "A" then HOutcome.ok (1 : Nat)
          else HOutcome.fail "boom") (⟨"B", "Node B", "compile"⟩ : WNode))), none⟩ ∧
    (∀ id ∈ ([] : List String), ∀ st, Event.status id st ∉
      (execute [⟨"A", "Node A", "projectCreate"⟩, ⟨"B", "Node B", "compile"⟩]
        [⟨"A", "B"⟩]
        (fun n => if n.id = "A" then HOutcome.ok (1 : Nat) else HOutcome.fail "boom")
        (fun _ => false)).2.2)) :=
  ⟨rfl, by unfold EdgesWellFormed; decide, fun j hj => rfl, by decide, rfl, rfl,
    claim4_first_failure _ _ _ _ ["A"] [] "B" ⟨"B", "Node B", "compile"⟩
      rfl (by unfold EdgesWellFormed; decide) (fun j hj => rfl) (by decide) rfl rfl⟩

/-- C5: the stop flag is checked exactly at the boundary before starting
each next step: when all handlers of the first steps of the Linear Order
succeed, the flag reads false at each of their checks and true at the
check before the next step, execute returns success false with the stop
message, every step before the boundary has reached the terminal Success
status, and no step at or after the boundary emits any status callback
(so none is ever started; a step already dispatched is never interrupted,
since the flag is only read at the per-step checks). -/
theorem claim5_stop_boundary {V : Type} (nodes : List WNode) (edges : List WEdge)
    (handler : WNode → HOutcome V) (stopFlag : Nat → Bool)
    (o1 o2 : List String)
    (hbuild : buildExecutionOrder nodes edges = Except.ok (o1 ++ o2))
    (hWF : EdgesWellFormed nodes edges)
    (ho2 : o2 ≠ [])
    (hstop1 : ∀ j, j < o1.length → stopFlag j = false)
    (hstop2 : stopFlag o1.length = true)
    (hsucc : ∀ id ∈ o1, ∀ n ∈ nodes, n.id = id → (handler n).isOk = true) :
    (execute nodes edges handler stopFlag).1 = ⟨false, stoppedMessage, none⟩ ∧
    (∀ id ∈ o1, Event.status id Status.success ∈
      (execute nodes edges handler stopFlag).2.2) ∧
    (∀ id ∈ o2, ∀ st, Event.status id st ∉
      (execute nodes edges handler stopFlag).2.2) := by
  have hne : o1 ++ o2 ≠ [] := by
    intro hc
    rcases List.append_eq_nil.mp hc with ⟨-, h2⟩
    exact ho2 h2
  have hperm := (buildExecutionOrder_ok_props nodes edges hWF _ hbuild).1
  have hnodup := (buildExecutionOrder_ok_props nodes edges hWF _ hbuild).2.1
  have hsucc2 : ∀ id ∈ o1, ∀ n, nodes.find? (fun x => x.id = id) = some n →
      (handler n).isOk = true :=
    fun id hid n hn =>
      hsucc id hid n (List.mem_of_find?_eq_some hn) (find?_node_id hn)
  have hids : ∀ i ∈ o1, i ∈ nodeIds nodes := by
    intro i hi
    exact hperm.mem_iff.mp (List.mem_append.mpr (Or.inl hi))
  rw [execute_eq_runLoop nodes edges handler stopFlag _ hbuild hne]
  rw [runLoop_prefixRun nodes handler stopFlag o1 o2 0 [] []
    (fun j hj => by simpa using hstop1 j hj) hsucc2]
  obtain ⟨c, o2x, rfl⟩ := List.exists_cons_of_ne_nil ho2
  rw [runLoop]
  rw [show stopFlag (0 + o1.length) = true from by simpa using hstop2]
  rw [if_pos rfl]
  refine ⟨rfl, ?_, ?_⟩
  · intro id hid
    show Event.status id Status.success ∈ [] ++ prefixEvents nodes handler o1
    rw [List.nil_append]
    exact prefixEvents_success_mem nodes handler o1 id hid hsucc2 hids
  · intro id hid st hmem
    have hmem2 : Event.status id st ∈ prefixEvents nodes handler o1 := by
      rw [List.nil_append] at hmem
      exact hmem
    have hido1 : id ∈ o1 := by
      have := prefixEvents_ids nodes handler o1 _ hmem2
      simpa [eventId] using this
    exact List.disjoint_of_nodup_append hnodup hido1 hid

theorem claim5_stop_boundary_witness :
    buildExecutionOrder
      [⟨"A", "Node A", "projectCreate"⟩, ⟨"B", "Node B", "compile"⟩]
      [⟨"A", "B"⟩] = Except.ok (["A"] ++ ["B"]) ∧
    EdgesWellFormed [⟨"A", "Node A", "projectCreate"⟩, ⟨"B", "Node B", "compile"⟩]
      [⟨"A", "B"⟩] ∧
    (["B"] : List String) ≠ [] ∧
    (∀ j, j < (["A"] : List String).length →
      (fun i => decide (1 ≤ i) : Nat → Bool) j = false) ∧
    ((fun i => decide (1 ≤ i) : Nat → Bool) (["A"] : List String).length = true) ∧
    (∀ id ∈ (["A"] : List String),
      ∀ n ∈ [(⟨"A", "Node A", "projectCreate"⟩ : WNode), ⟨"B", "Node B", "compile"⟩],
        n.id = id → ((fun _ => HOutcome.ok (7 : Nat)) n).isOk = true) ∧
    ((execute [⟨"A", "Node A", "projectCreate"⟩, ⟨"B", "Node B", "compile"⟩]
        [⟨"A", "B"⟩] (fun _ => HOutcome.ok (7 : Nat))
        (fun i => decide (1 ≤ i))).1 = ⟨false, stoppedMessage, none⟩ ∧
    (∀ id ∈ (["A"] : List String), Event.status id Status.success ∈
      (execute [⟨"A", "Node A", "projectCreate"⟩, ⟨"B", "Node B", "compile"⟩]
        [⟨"A", "B"⟩] (fun _ => HOutcome.ok (7 : Nat))
        (fun i => decide (1 ≤ i))).2.2) ∧
    (∀ id ∈ (["B"] : List String), ∀ st, Event.status id st ∉
      (execute [⟨"A", "Node A", "projectCreate"⟩, ⟨"B", "Node B", "compile"⟩]
        [⟨"A", "B"⟩] (fun _ => HOutcome.ok (7 : Nat))
        (fun i => decide (1 ≤ i))).2.2)) :=
  ⟨rfl, by unfold EdgesWellFormed; decide, by decide, by decide, by decide, by decide,
    claim5_stop_boundary _ _ _ _ ["A"] ["B"] rfl
      (by unfold EdgesWellFormed; decide) (by decide) (by decide) (by decide)
      (by decide)⟩

/-- C6: throughout a run on a graph with well-formed connections, the
executionData map contains an entry for a step id iff that step has
reached Success (its handler succeeded): the keys are written exactly
once (they are nodup), each entry holds exactly the successful handler's
output, and a step that reached Error never has an entry.  Entries are
only appended, never overwritten or deleted, so the final-state
characterisation below holds at every intermediate state as well. -/
theorem claim6_execution_context {V : Type} (nodes : List WNode) (edges : List WEdge)
    (handler : WNode → HOutcome V) (stopFlag : Nat → Bool)
    (hWF : EdgesWellFormed nodes edges) :
    EdInv nodes handler (execute nodes edges handler stopFlag).2.1
      (execute nodes edges handler stopFlag).2.2 := by
  have hempty : EdInv nodes handler ([] : List (String × Option V)) [] := by
    refine ⟨?_, ?_, ?_, ?_⟩
    · simp [keysOf]
    · intro id
      simp [keysOf]
    · intro id dv h
      cases h
    · intro id h
      cases h
  cases hb : buildExecutionOrder nodes edges with
  | error msg =>
      unfold execute
      rw [hb]
      exact hempty
  | ok order =>
      by_cases hlen : order.length = 0
      · unfold execute
        rw [hb]
        dsimp only
        rw [if_pos hlen]
        exact hempty
      · rw [execute_eq_runLoop nodes edges handler stopFlag order hb
          (fun hc => hlen (by rw [hc]; rfl))]
        apply runLoop_edInv
        · exact (buildExecutionOrder_ok_props nodes edges hWF order hb).2.1
        · intro id hid
          simp [keysOf] at hid
        · intro ev hev
          cases hev
        · exact hempty

theorem claim6_execution_context_witness :
    EdgesWellFormed [⟨"A", "Node A", "projectCreate"⟩, ⟨"B", "Node B", "compile"⟩]
      [⟨"A", "B"⟩] ∧
    EdInv [⟨"A", "Node A", "projectCreate"⟩, ⟨"B", "Node B", "compile"⟩]
      (fun n => if n.id = "A" then HOutcome.ok (1 : Nat) else HOutcome.fail "boom")
      (execute [⟨"A", "Node A", "projectCreate"⟩, ⟨"B", "Node B", "compile"⟩]
        [⟨"A", "B"⟩]
        (fun n => if n.id = "A" then HOutcome.ok (1 : Nat) else HOutcome.fail "boom")
        (fun _ => false)).2.1
      (execute [⟨"A", "Node A", "projectCreate"⟩, ⟨"B", "Node B", "compile"⟩]
        [⟨"A", "B"⟩]
        (fun n => if n.id = "A" then HOutcome.ok (1 : Nat) else HOutcome.fail "boom")
        (fun _ => false)).2.2 :=
  ⟨by unfold EdgesWellFormed; decide,
    claim6_execution_context _ _ _ _ (by unfold EdgesWellFormed; decide)⟩

/-- C7: findPreviousData is the first-match lookup by kind over the
insertion-ordered executionData: it returns null exactly when no recorded
entry belongs to a step of the requested kind, and when the entries split
as a prefix containing no step of the kind followed by an entry of a step
of the kind, it returns that entry's data (the first such entry in
insertion, i.e. execution, order).  In particular, if step S of kind K is
the first step of kind K to succeed before step T runs, a lookup of kind
K during T's handler returns S's output. -/
theorem claim7_find_previous_data {V : Type} (nodes : List WNode) :
    (∀ (ed : List (String × Option V)) (t : String),
      (findPreviousData nodes ed t = none ↔
        ∀ p ∈ ed, ∀ n, nodes.find? (fun x => x.id = p.1) = some n → n.type ≠ t)) ∧
    (∀ (l1 l2 : List (String × Option V)) (id : String) (dv : Option V)
      (t : String) (n : WNode),
      nodes.find? (fun x => x.id = id) = some n → n.type = t →
      (∀ p ∈ l1, ∀ m, nodes.find? (fun x => x.id = p.1) = some m → m.type ≠ t) →
      findPreviousData nodes (l1 ++ (id, dv) :: l2) t = some dv) := by
  constructor
  · intro ed t
    induction ed with
    | nil =>
        constructor
        · intro _ p hp
          cases hp
        · intro _
          rfl
    | cons p rest ih =>
        obtain ⟨nodeId, data⟩ := p
        rw [findPreviousData]
        cases hf : nodes.find? (fun n => n.id = nodeId) with
        | none =>
            dsimp only
            rw [ih]
            constructor
            · intro h q hq m hm
              rcases List.mem_cons.mp hq with rfl | hq
              · rw [hm] at hf
                cases hf
              · exact h q hq m hm
            · intro h q hq m hm
              exact h q (List.mem_cons_of_mem _ hq) m hm
        | some node =>
            dsimp only
            by_cases ht : node.type = t
            · rw [if_pos ht]
              constructor
              · intro h
                cases h
              · intro h
                exact absurd ht (h (nodeId, data) (List.mem_cons_self _ _) node hf)
            · rw [if_neg ht, ih]
              constructor
              · intro h q hq m hm
                rcases List.mem_cons.mp hq with rfl | hq
                · rw [hm] at hf
                  rw [Option.some.inj hf]
                  exact ht
                · exact h q hq m hm
              · intro h q hq m hm
                exact h q (List.mem_cons_of_mem _ hq) m hm
  · intro l1
    induction l1 with
    | nil =>
        intro l2 id dv t n hfind htype _
        rw [List.nil_append, findPreviousData, hfind]
        dsimp only
        rw [if_pos htype]
    | cons p l1x ih =>
        intro l2 id dv t n hfind htype hl1
        obtain ⟨nodeId, data⟩ := p
        rw [List.cons_append, findPreviousData]
        cases hf : nodes.find? (fun x => x.id = nodeId) with
        | none =>
            dsimp only
            exact ih l2 id dv t n hfind htype
              (fun q hq m hm => hl1 q (List.mem_cons_of_mem _ hq) m hm)
        | some m =>
            dsimp only
            rw [if_neg (hl1 (nodeId, data) (List.mem_cons_self _ _) m hf)]
            exact ih l2 id dv t n hfind htype
              (fun q hq mm hmm => hl1 q (List.mem_cons_of_mem _ hq) mm hmm)

theorem claim7_find_previous_data_witness :
    ([(⟨"A", "Node A", "projectCreate"⟩ : WNode),
      ⟨"B", "Node B", "compile"⟩].find? (fun x => x.id = "B") =
      some ⟨"B", "Node B", "compile"⟩) ∧
    ((⟨"B", "Node B", "compile"⟩ : WNode).type = "compile") ∧
    (∀ p ∈ ([("A", some 1)] : List (String × Option Nat)), ∀ m,
      [(⟨"A", "Node A", "projectCreate"⟩ : WNode),
       ⟨"B", "Node B", "compile"⟩].find? (fun x => x.id = p.1) = some m →
      m.type ≠ "compile") ∧
    findPreviousData [⟨"A", "Node A", "projectCreate"⟩, ⟨"B", "Node B", "compile"⟩]
      ([("A", some 1)] ++ ("B", some 2) :: []) "compile" = some (some 2) := by
  have hprefix : ∀ p ∈ ([("A", some 1)] : List (String × Option Nat)), ∀ m,
      [(⟨"A", "Node A", "projectCreate"⟩ : WNode),
       ⟨"B", "Node B", "compile"⟩].find? (fun x => x.id = p.1) = some m →
      m.type ≠ "compile" := by
    intro p hp m hm
    rw [List.mem_singleton] at hp
    subst hp
    have : m = ⟨"A", "Node A", "projectCreate"⟩ := by
      have hcalc : [(⟨"A", "Node A", "projectCreate"⟩ : WNode),
          ⟨"B", "Node B", "compile"⟩].find? (fun x => x.id = "A") =
          some ⟨"A", "Node A", "projectCreate"⟩ := rfl
      rw [hcalc] at hm
      exact (Option.some.inj hm).symm
    rw [this]
    decide
  exact ⟨rfl, rfl, hprefix,
    (claim7_find_previous_data
        [⟨"A", "Node A", "projectCreate"⟩, ⟨"B", "Node B", "compile"⟩]).2
      [("A", some 1)] [] "B" (some 2) "compile" ⟨"B", "Node B", "compile"⟩
      rfl rfl hprefix⟩

/-- C8: every exception thrown inside a step handler is caught at the
dispatch boundary of executeNode and converted into a failure result: the
step is marked Error (an Error status callback is issued), and when the
exception occurs at the first failing step of a run, execute resolves with
success false carrying the exception's message (wrapped with the failing
step's label) instead of rejecting.  In the embedding, execute is a total
function: no input makes it propagate an exception to the caller. -/
theorem claim8_exception_conversion {V : Type} (nodes : List WNode) (edges : List WEdge)
    (handler : WNode → HOutcome V) (stopFlag : Nat → Bool)
    (o1 o2 : List String) (failId : String) (fnode : WNode) (m : String)
    (hbuild : buildExecutionOrder nodes edges = Except.ok (o1 ++ failId :: o2))
    (hWF : EdgesWellFormed nodes edges)
    (hstop : ∀ j, j ≤ o1.length → stopFlag j = false)
    (hsucc : ∀ id ∈ o1, ∀ n ∈ nodes, n.id = id → (handler n).isOk = true)
    (hfind : nodes.find? (fun n => n.id = failId) = some fnode)
    (hexn : handler fnode = HOutcome.exn m) :
    (∀ (node : WNode) (m2 : String), handler node = HOutcome.exn m2 →
      executeNode handler node =
        (⟨false, jsOrStr m2 "Node execution failed", none⟩,
         [Event.status node.id Status.running, Event.status node.id Status.error,
          Event.updateError node.id (jsOrStr m2 "Node execution failed")])) ∧
    (execute nodes edges handler stopFlag).1 =
      ⟨false, failedAtMessage fnode.label (jsOrStr m "Node execution failed"), none⟩ ∧
    Event.status failId Status.error ∈ (execute nodes edges handler stopFlag).2.2 := by
  have hfail : (handler fnode).isOk = false := by
    rw [hexn]
    rfl
  have h := execute_first_failure nodes edges handler stopFlag o1 o2 failId fnode
    hbuild hWF hstop
    (fun id hid n hn =>
      hsucc id hid n (List.mem_of_find?_eq_some hn) (find?_node_id hn))
    hfind hfail
  refine ⟨?_, ?_, h.2.2⟩
  · intro node m2 hm2
    simp [executeNode, hm2]
  · rw [h.1]
    have : failureMessage (handler fnode) = jsOrStr m "Node execution failed" := by
      rw [hexn]
      rfl
    rw [this]

theorem claim8_exception_conversion_witness :
    buildExecutionOrder
      [⟨"A", "Node A", "projectCreate"⟩, ⟨"B", "Node B", "compile"⟩]
      [⟨"A", "B"⟩] = Except.ok (["A"] ++ "B" :: []) ∧
    EdgesWellFormed [⟨"A", "Node A", "projectCreate"⟩, ⟨"B", "Node B", "compile"⟩]
      [⟨"A", "B"⟩] ∧
    ((fun n => if n.id = "A" then HOutcome.ok (1 : Nat) else HOutcome.exn "kaboom")
      (⟨"B", "Node B", "compile"⟩ : WNode) = HOutcome.exn "kaboom") ∧
    ((∀ (node : WNode) (m2 : String),
      (fun n => if n.id = "A" then HOutcome.ok (1 : Nat) else HOutcome.exn "kaboom")
        node = HOutcome.exn m2 →
      executeNode
        (fun n => if n.id = "A" then HOutcome.ok (1 : Nat) else HOutcome.exn "kaboom")
        node =
        (⟨false, jsOrStr m2 "Node execution failed", none⟩,
         [Event.status node.id Status.running, Event.status node.id Status.error,
          Event.updateError node.id (jsOrStr m2 "Node execution failed")])) ∧
    (execute [⟨"A", "Node A", "projectCreate"⟩, ⟨"B", "Node B", "compile"⟩]
        [⟨"A", "B"⟩]
        (fun n => if n.id = "A" then HOutcome.ok (1 : Nat) else HOutcome.exn "kaboom")
        (fun _ => false)).1 =
      ⟨false, failedAtMessage "Node B" (jsOrStr "kaboom" "Node execution failed"),
        none⟩ ∧
    Event.status "B" Status.error ∈
      (execute [⟨"A", "Node A", "projectCreate"⟩, ⟨"B", "Node B", "compile"⟩]
        [⟨"A", "B"⟩]
        (fun n => if n.id = "A" then HOutcome.ok (1 : Nat) else HOutcome.exn "kaboom")
        (fun _ => false)).2.2) :=
  ⟨rfl, by unfold EdgesWellFormed; decide, rfl,
    claim8_exception_conversion _ _ _ _ ["A"] [] "B" ⟨"B", "Node B", "compile"⟩
      "kaboom" rfl (by unfold EdgesWellFormed; decide) (fun j hj => rfl)
      (by decide) rfl rfl⟩

theorem addEdges_vals_pos (edges : List WEdge) :
    ∀ st : List (String × Int) × List (String × List String),
      (∀ p ∈ st.1, 1 ≤ p.2) → ∀ p ∈ (addEdges edges st).1, 1 ≤ p.2 := by
  induction edges with
  | nil => intro st h; exact h
  | cons e es ih =>
      intro st h
      rw [addEdges, List.foldl_cons]
      rw [show (es.foldl _ _) = addEdges es
        ((mapSet st.1 e.target ((mapGet st.1 e.target).getD 0 + 1),
          match mapGet st.2 e.source with
          | some lst => mapSet st.2 e.source (lst ++ [e.target])
          | none => st.2)) from rfl]
      apply ih
      intro p hp
      rcases mem_mapSet hp with rfl | hp
      · show 1 ≤ (mapGet st.1 e.target).getD 0 + 1
        cases hg : mapGet st.1 e.target with
        | none => simp
        | some v =>
            have : 1 ≤ v := h (e.target, v) (mem_of_mapGet_eq_some hg)
            simp
            omega
      · exact h p hp

/-- C9: for every graph with zero steps (regardless of its connections),
execute fails fast: it returns success false with the no-steps message,
the executionData remains empty and no status callback is ever issued, so
no handler is invoked and nothing is dispatched. -/
theorem claim9_empty_graph {V : Type} (edges : List WEdge)
    (handler : WNode → HOutcome V) (stopFlag : Nat → Bool) :
    execute ([] : List WNode) edges handler stopFlag =
      (⟨false, noNodesMessage, none⟩, [], []) := by
  have hpos : ∀ p ∈ (addEdges edges (initDegAdj [])).1, 1 ≤ p.2 := by
    apply addEdges_vals_pos
    intro p hp
    cases hp
  have hqueue : initialQueue (addEdges edges (initDegAdj [])).1 = [] := by
    unfold initialQueue
    rw [List.filter_eq_nil_iff.mpr]
    · rfl
    · intro p hp
      have := hpos p hp
      simp
      omega
  have hbuild : buildExecutionOrder ([] : List WNode) edges = Except.ok [] := by
    rw [buildExecutionOrder_unfolded]
    rw [show (kahnLoop (addEdges edges (initDegAdj [])).2 (kahnFuel [] edges)
        ⟨initialQueue (addEdges edges (initDegAdj [])).1,
         (addEdges edges (initDegAdj [])).1, []⟩).result = [] from by
      rw [hqueue]
      rw [show kahnFuel ([] : List WNode) edges = 2 * edges.length + 1 from by
        unfold kahnFuel
        simp]
      rw [kahnLoop]]
    simp
  unfold execute
  rw [hbuild]
  dsimp only
  rfl

/-! ## Proofs about validateSolidityCode and extractContractName (C10) -/

theorem scanKeywordName_isSome_of_valid (s : String)
    (h : (validateSolidityCode s).valid = true) :
    (scanKeywordName s.toList).isSome = true := by
  unfold validateSolidityCode at h
  dsimp only at h
  split_ifs at h with h1 h2 h3
  cases ho : scanKeywordName s.toList with
  | none => exact absurd (by rw [Option.isNone_iff_eq_none]; exact ho) h3
  | some w => simp

theorem extractContractName_isSome_of_valid (s : String)
    (h : (validateSolidityCode s).valid = true) :
    (extractContractName s).isSome = true := by
  have hk := scanKeywordName_isSome_of_valid s h
  unfold extractContractName
  cases hm : scanMainContract s.toList with
  | some w => simp
  | none =>
      cases ho : scanKeywordName s.toList with
      | none => rw [ho] at hk; cases hk
      | some w => simp

theorem validateSolidityCode_message_cases (s : String) :
    (validateSolidityCode s).message = none ∨
      (validateSolidityCode s).message ∈
        [some "Source code is empty",
         some "Missing \"pragma solidity\" directive. Please specify Solidity version.",
         some "No contract, interface, or library definition found"] := by
  unfold validateSolidityCode
  dsimp only
  split_ifs with h1 h2 h3
  · simp
  · simp
  · simp
  · simp

/-- C10: whenever validateSolidityCode accepts a source text,
extractContractName on that same text returns a name (its third check
matches the same keyword-name pattern as the extractor's fallback regular
expression); hence the branch of the Source Input handler
executeContractInput that reports that the contract name could not be
extracted is unreachable: on no input whatsoever does the handler return
that message, so on validated code with a missing user-supplied name it
always derives a name from the source. -/
theorem claim10_contract_name_derivable :
    (∀ s : String, (validateSolidityCode s).valid = true →
      (extractContractName s).isSome = true) ∧
    (∀ contractCode contractName : Option String,
      (executeContractInput contractCode contractName).message ≠
        couldNotExtractMessage) := by
  constructor
  · exact extractContractName_isSome_of_valid
  · intro contractCode contractName
    unfold executeContractInput
    by_cases h1 : strFalsy contractCode = true
    · rw [if_pos h1]
      decide
    · rw [if_neg h1]
      by_cases h2 : (validateSolidityCode (contractCode.getD "")).valid = true
      · rw [if_neg (by rw [h2]; simp)]
        by_cases h3 : strFalsy contractName = true
        · rw [if_pos h3]
          cases hx : extractContractName (contractCode.getD "") with
          | none =>
              have := extractContractName_isSome_of_valid (contractCode.getD "") h2
              rw [hx] at this
              cases this
          | some extracted =>
              show ("Contract code validated" : String) ≠ couldNotExtractMessage
              decide
        · rw [if_neg h3]
          show ("Contract code validated" : String) ≠ couldNotExtractMessage
          decide
      · have h2f : (validateSolidityCode (contractCode.getD "")).valid = false := by
          revert h2
          cases (validateSolidityCode (contractCode.getD "")).valid <;> simp
        rw [if_pos (by rw [h2f]; rfl)]
        show jsOrOptStr (validateSolidityCode (contractCode.getD "")).message
          "Invalid Solidity code" ≠ couldNotExtractMessage
        rcases validateSolidityCode_message_cases (contractCode.getD "") with hm | hm
        · rw [hm]
          decide
        · simp only [List.mem_cons, List.mem_singleton] at hm
          rcases hm with hm | hm | hm | hm
          · rw [hm]; decide
          · rw [hm]; decide
          · rw [hm]; decide
          · cases hm

theorem claim10_contract_name_derivable_witness :
    (validateSolidityCode
      "pragma solidity ^0.8.0; contract Foo \x7b uint x; \x7d").valid = true ∧
    (extractContractName
      "pragma solidity ^0.8.0; contract Foo \x7b uint x; \x7d").isSome = true ∧
    (executeContractInput
      (some "pragma solidity ^0.8.0; contract Foo \x7b uint x; \x7d")
      none).message ≠ couldNotExtractMessage :=
  ⟨rfl,
   claim10_contract_name_derivable.1
     "pragma solidity ^0.8.0; contract Foo \x7b uint x; \x7d" rfl,
   claim10_contract_name_derivable.2
     (some "pragma solidity ^0.8.0; contract Foo \x7b uint x; \x7d") none⟩

end Workflow
